import Mathlib

/-!
# EcNode peer-lifecycle simulators: a shallow embedding

This file embeds the peer-lifecycle core of the EcProtocol/EcNode repository
(`peer_lifecycle/peer_lifecycle_simulator_fixed.py`,
`peer_lifecycle/distance_based_connections.py`,
`peer_lifecycle/improved_distance_optimization.py`,
`peer_lifecycle/peer_lifecycle_simulator_gradient.py`) and proves properties
of the admission state machine, the greedy discovery walk, the eviction
policies and the round engine.

Modelling conventions:
* Python `dict`s keyed by peer id become insertion-ordered association lists
  (`List (Nat × _)`); `dict` iteration order is insertion order, updates keep
  the position of an existing key and new keys are appended, which the list
  operations below mirror.
* Every call to the process-wide random generator (`random.randint`,
  `random.sample`, `random.choice`) is replaced by an explicit oracle
  parameter; theorems either hold for every oracle or carry a validity
  hypothesis describing the set of draws the library call can produce.
* Rounds and `last_heard_from` are `Int` (the sources use `-1` for "never").
* Python `int(x)` truncation of the nonnegative float products appearing in
  the bucket-target normalisation is modelled by natural floor division.
-/

namespace EcNode

/-- Relationship states from `PeerState` (absence of a record is "Unknown"). -/
inductive PeerState where
  | connected
  | prospect
  | pending
  | identified
deriving DecidableEq, Repr

/-- `PeerInfo` of the fixed (XOR) simulator. -/
structure PeerInfo where
  state : PeerState
  last_heard_from : Int := -1
deriving DecidableEq, Repr

/-- `Invite`: sender id and the round it was sent. -/
structure Invite where
  sender_id : Nat
  round_sent : Int
deriving DecidableEq, Repr

/-- `Peer` of the fixed simulator: id, degree bound, relationship map and
inbound invite queue. -/
structure Peer where
  id : Nat
  max_connections : Nat
  known_peers : List (Nat × PeerInfo)
  pending_invites : List Invite
deriving DecidableEq, Repr

/-- `Peer._xor_distance`. -/
def xor_distance (peer1_id peer2_id : Nat) : Nat :=
  peer1_id ^^^ peer2_id

/-- First-match lookup in an insertion-ordered association list
(Python `dict.get`). -/
def lookupInfo {α : Type} (kp : List (Nat × α)) (pid : Nat) : Option α :=
  (kp.find? (fun e => e.1 == pid)).map (·.2)

/-- Key membership in an association list (`in` on a Python dict). -/
def hasKey {α : Type} (kp : List (Nat × α)) (pid : Nat) : Bool :=
  (lookupInfo kp pid).isSome

/-- Key deletion (`del d[k]`). -/
def deleteKey {α : Type} (kp : List (Nat × α)) (pid : Nat) : List (Nat × α) :=
  kp.filter (fun e => e.1 != pid)

/-- `Peer.get_peer_state`: `None` when the peer is unknown. -/
def Peer.get_peer_state (p : Peer) (pid : Nat) : Option PeerState :=
  (lookupInfo p.known_peers pid).map (·.state)

/-- Core of `Peer.set_peer_state` on the relationship map: update the state of
an existing record in place (refreshing `last_heard_from` only when
`round_num >= 0`), or append a fresh record. -/
def setInfoEntry (kp : List (Nat × PeerInfo)) (pid : Nat) (st : PeerState)
    (round_num : Int) : List (Nat × PeerInfo) :=
  if hasKey kp pid then
    kp.map (fun e =>
      if e.1 == pid then
        (e.1, { state := st,
                last_heard_from :=
                  if 0 ≤ round_num then round_num else e.2.last_heard_from })
      else e)
  else
    kp ++ [(pid, { state := st, last_heard_from := round_num })]

/-- `Peer.set_peer_state`. -/
def Peer.set_peer_state (p : Peer) (pid : Nat) (st : PeerState)
    (round_num : Int) : Peer :=
  { p with known_peers := setInfoEntry p.known_peers pid st round_num }

/-- `Peer.update_last_heard_from`: refresh the timestamp of an existing
record; unknown peers are ignored. -/
def Peer.update_last_heard_from (p : Peer) (pid : Nat) (round_num : Int) :
    Peer :=
  { p with known_peers :=
      p.known_peers.map (fun e =>
        if e.1 == pid then (e.1, { e.2 with last_heard_from := round_num })
        else e) }

/-- `Peer.get_peers_by_state` (insertion order). -/
def Peer.get_peers_by_state (p : Peer) (st : PeerState) : List Nat :=
  p.known_peers.filterMap (fun e => if e.2.state = st then some e.1 else none)

/-- `Peer.get_connected_peers`. -/
def Peer.get_connected_peers (p : Peer) : List Nat :=
  p.get_peers_by_state .connected

/-- `Peer.get_all_known_peers`. -/
def Peer.get_all_known_peers (p : Peer) : List Nat :=
  p.known_peers.map (·.1)

/-- Python `min(xs, key=f)`: the first element attaining the minimal key;
`none` on the empty list. -/
def minByKey (xs : List Nat) (f : Nat → Nat) : Option Nat :=
  xs.foldl (fun acc x =>
    match acc with
    | none => some x
    | some b => if f x < f b then some x else some b) none

/-- `Peer.find_closest_peer_to_target` as it is invoked by the simulator
(no excluded states): the known peer minimising XOR distance to the target. -/
def Peer.find_closest_peer_to_target (p : Peer) (target_id : Nat) :
    Option Nat :=
  minByKey p.get_all_known_peers (fun pid => xor_distance pid target_id)

/-- `Peer.receive_invite`. -/
def Peer.receive_invite (p : Peer) (invite : Invite) : Peer :=
  { p with pending_invites := p.pending_invites ++ [invite] }

/-- Reaction of `Peer.process_invites` to one queued invite: the returned
option is the entry this invite contributes to `state_changes` (a record in
state Prospect contributes nothing). -/
def Peer.processInvite (p : Peer) (round_num : Int) (invite : Invite) :
    Peer × Option (Nat × PeerState) :=
  match p.get_peer_state invite.sender_id with
  | some .pending =>
      (p.set_peer_state invite.sender_id .connected round_num,
       some (invite.sender_id, .connected))
  | some .identified =>
      (p.set_peer_state invite.sender_id .prospect round_num,
       some (invite.sender_id, .prospect))
  | some .connected =>
      (p.update_last_heard_from invite.sender_id round_num,
       some (invite.sender_id, .connected))
  | some .prospect => (p, none)
  | none =>
      (p.set_peer_state invite.sender_id .prospect round_num,
       some (invite.sender_id, .prospect))

/-- `Peer.process_invites`: drain the queue in order, then clear it; returns
the `state_changes` list. -/
def Peer.process_invites (p : Peer) (round_num : Int) :
    Peer × List (Nat × PeerState) :=
  let r := p.pending_invites.foldl
    (fun (acc : Peer × List (Nat × PeerState)) invite =>
      let s := acc.1.processInvite round_num invite
      (s.1, acc.2 ++ s.2.toList))
    (p, [])
  ({ r.1 with pending_invites := [] }, r.2)

/-- `Peer.remove_excess_connections` (uniform-random policy): when over the
degree bound, delete `excess` Connected records chosen by the sampling oracle
(`random.sample(connected, excess_count)`). -/
def Peer.remove_excess_connections (p : Peer)
    (sample : List Nat → Nat → List Nat) : Peer × List Nat :=
  let connected := p.get_connected_peers
  if connected.length ≤ p.max_connections then (p, [])
  else
    let excess_count := connected.length - p.max_connections
    let to_remove := sample connected excess_count
    ({ p with known_peers :=
        to_remove.foldl (fun kp pid => deleteKey kp pid) p.known_peers },
     to_remove)

/-- Validity of one draw of `random.sample(pool, k)`: `k` elements taken at
distinct positions of `pool` in some order — i.e. a length-`k` sub-permutation
of the pool.  Only demanded when `k ≤ |pool|` (otherwise the library
raises). -/
def validSample (pool : List Nat) (k : Nat) (chosen : List Nat) : Prop :=
  chosen.length = k ∧ chosen.Subperm pool

/-! ## The fixed `NetworkSimulator`

The registry `self.peers : Dict[int, Peer]` always maps `pid` to the peer
whose `id` is `pid`, so it is embedded as an ordered `List Peer` with lookup
by `id`. -/

/-- `pid in self.peers`. -/
def memNet (net : List Peer) (pid : Nat) : Bool :=
  net.any (fun p => p.id == pid)

/-- `self.peers[pid]` (first peer with the given id). -/
def findPeer (net : List Peer) (pid : Nat) : Option Peer :=
  net.find? (fun p => p.id == pid)

/-- In-place mutation of the peer object stored under `pid`. -/
def updatePeer (net : List Peer) (pid : Nat) (f : Peer → Peer) : List Peer :=
  net.map (fun p => if p.id == pid then f p else p)

/-- A transformation of the peer stored under `t` that cannot move it to a
different registry key. -/
def idPreserving (t : Nat) (f : Peer → Peer) : Prop :=
  ∀ p, p.id = t → (f p).id = t

/-- `NetworkSimulator._recursive_search_with_hop_limit`.  Every return path
of the Python function yields a peer id, so the result type is `Nat`. -/
def recursive_search_with_hop_limit (net : List Peer) (start_peer_id : Nat)
    (target_id : Nat) : (max_hops : Nat) → Nat
  | 0 => start_peer_id
  | max_hops + 1 =>
    match findPeer net start_peer_id with
    | none => start_peer_id
    | some current_peer =>
      let connected_peers := current_peer.get_connected_peers
      match minByKey connected_peers (fun pid => xor_distance pid target_id) with
      | none => start_peer_id
      | some closest_connected =>
        let current_distance := xor_distance start_peer_id target_id
        let closest_distance := xor_distance closest_connected target_id
        if current_distance ≤ closest_distance then start_peer_id
        else recursive_search_with_hop_limit net closest_connected target_id
               max_hops

/-- The starting points collected by `simulate_mapping_request`: the closest
known peer — silently omitted when falsy (`None` **or id `0`**) or not in the
registry — followed by up to two sampled other known peers. -/
def starting_points (net : List Peer) (peer : Peer) (target_id : Nat)
    (sample : List Nat → Nat → List Nat) : List Nat :=
  let closest_peer_id := peer.find_closest_peer_to_target target_id
  let fromClosest :=
    match closest_peer_id with
    | some c => if c ≠ 0 ∧ memNet net c then [c] else []
    | none => []
  let all_known := peer.get_all_known_peers
  let available_randoms :=
    all_known.filter (fun pid => closest_peer_id ≠ some pid ∧ memNet net pid)
  let num_random := min 2 available_randoms.length
  let random_starts :=
    if num_random > 0 then sample available_randoms num_random else []
  fromClosest ++ random_starts

/-- `NetworkSimulator.simulate_mapping_request`: the random target draw is
the `target_id` argument, the `random.sample` draw is the `sample` oracle.
A walk response of `0` is falsy in `if response:` and is silently dropped. -/
def simulate_mapping_request (net : List Peer) (peer : Peer) (target_id : Nat)
    (sample : List Nat → Nat → List Nat) : Option Nat :=
  let starts := starting_points net peer target_id sample
  if starts = [] then none
  else
    let responses :=
      (starts.map (fun s => recursive_search_with_hop_limit net s target_id 10)
        ).filter (fun r => r ≠ 0)
    if responses = [] then none
    else minByKey responses (fun pid => xor_distance pid target_id)

/-- Oracle bundle for one simulated round: one entry per random draw of
`simulate_round`, keyed by the id of the peer whose turn performs the draw. -/
structure RoundOracle where
  /-- `random.randint(0, max_id)` opening `simulate_mapping_request`. -/
  target : Nat → Nat
  /-- `random.sample(available_randoms, num_random)` of the mapping request. -/
  sample_starts : Nat → List Nat → Nat → List Nat
  /-- `random.sample(connected_peers, 2)` of the maintenance step. -/
  maint_sample : Nat → List Nat → List Nat
  /-- the sampling draws of the eviction step. -/
  evict_sample : Nat → List Nat → Nat → List Nat

/-- Reaction of phase 1 to the outcome of one mapping request.  The guard
`if discovered_peer_id and ...` drops a `None` **or zero** discovery, a
self-discovery, and an unregistered id; a record in state Pending matches
no branch and is left untouched. -/
def phase1_react (round_number : Int)
    (acc : List Peer × List (Nat × Nat)) (pid : Nat) (peer : Peer) :
    Option Nat → List Peer × List (Nat × Nat)
  | none => acc
  | some discovered_peer_id =>
    let net := acc.1
    if discovered_peer_id ≠ 0 ∧ discovered_peer_id ≠ peer.id ∧
        memNet net discovered_peer_id then
      match peer.get_peer_state discovered_peer_id with
      | none =>
          (updatePeer net pid
             (fun q => q.set_peer_state discovered_peer_id .pending
               round_number),
           acc.2 ++ [(peer.id, discovered_peer_id)])
      | some .identified =>
          (updatePeer net pid
             (fun q => q.set_peer_state discovered_peer_id .pending
               round_number),
           acc.2 ++ [(peer.id, discovered_peer_id)])
      | some .prospect =>
          (updatePeer net pid
             (fun q => q.set_peer_state discovered_peer_id .connected
               round_number),
           acc.2 ++ [(peer.id, discovered_peer_id)])
      | some .connected =>
          (updatePeer net pid
             (fun q => q.update_last_heard_from discovered_peer_id
               round_number),
           acc.2 ++ [(peer.id, discovered_peer_id)])
      | some .pending => acc
    else acc

/-- Phase 1 for a single peer: run the mapping request and apply the
self-initiated admission transition, collecting the invite to send. -/
def phase1_step (o : RoundOracle) (round_number : Int)
    (acc : List Peer × List (Nat × Nat)) (pid : Nat) :
    List Peer × List (Nat × Nat) :=
  match findPeer acc.1 pid with
  | none => acc
  | some peer =>
    phase1_react round_number acc pid peer
      (simulate_mapping_request acc.1 peer (o.target pid)
        (o.sample_starts pid))

/-- Phase 1 of `simulate_round`: each peer, in registry order, performs one
mapping request against the state left by the peers before it. -/
def phase1 (o : RoundOracle) (round_number : Int) (net : List Peer) :
    List Peer × List (Nat × Nat) :=
  (net.map (·.id)).foldl (phase1_step o round_number) (net, [])

/-- Phase 2 of `simulate_round`: deliver the collected invites. -/
def phase2 (round_number : Int) (net : List Peer)
    (invites_to_send : List (Nat × Nat)) : List Peer :=
  invites_to_send.foldl
    (fun net sr =>
      if memNet net sr.2 then
        updatePeer net sr.2
          (fun q => q.receive_invite ⟨sr.1, round_number⟩)
      else net)
    net

/-- Phase 3 for a single peer: drain the inbox, send maintenance invites to
two sampled Connected relationships when at least two exist, then run the
eviction policy.  Returns the updated registry together with the list of
invites this peer consumed and the targets of its maintenance invites. -/
def phase3_step (o : RoundOracle) (round_number : Int)
    (evict : Nat → Peer → Peer × List Nat) (net : List Peer) (pid : Nat) :
    List Peer × List Invite × List Nat :=
  match findPeer net pid with
  | none => (net, [], [])
  | some peer =>
    let consumed := peer.pending_invites
    let processed := peer.process_invites round_number
    let net1 := updatePeer net pid (fun _ => processed.1)
    let connected_peers := processed.1.get_connected_peers
    let selected_peers :=
      if connected_peers.length ≥ 2 then o.maint_sample pid connected_peers
      else []
    let net2 := selected_peers.foldl
      (fun net target_id =>
        if memNet net target_id then
          updatePeer net target_id
            (fun q => q.receive_invite ⟨peer.id, round_number⟩)
        else net)
      net1
    let net3 :=
      match findPeer net2 pid with
      | none => net2
      | some q => updatePeer net2 pid (fun _ => (evict pid q).1)
    (net3, consumed, selected_peers)

/-- Phase 3 of `simulate_round` over the registry ids in order, logging per
peer the consumed invites and the maintenance targets. -/
def phase3_go (o : RoundOracle) (round_number : Int)
    (evict : Nat → Peer → Peer × List Nat) :
    List Nat → List Peer → List (Nat × List Invite × List Nat) →
    List Peer × List (Nat × List Invite × List Nat)
  | [], net, logs => (net, logs)
  | pid :: rest, net, logs =>
    let s := phase3_step o round_number evict net pid
    phase3_go o round_number evict rest s.1 (logs ++ [(pid, s.2.1, s.2.2)])

/-- Phase 3 entry point. -/
def phase3 (o : RoundOracle) (round_number : Int)
    (evict : Nat → Peer → Peer × List Nat) (net : List Peer) :
    List Peer × List (Nat × List Invite × List Nat) :=
  phase3_go o round_number evict (net.map (·.id)) net []

/-- `NetworkSimulator.simulate_round` with the eviction policy abstracted:
the fixed simulator instantiates `evict` with the uniform-random
`Peer.remove_excess_connections`. -/
def simulate_round_with (o : RoundOracle) (round_number : Int)
    (evict : Nat → Peer → Peer × List Nat) (net : List Peer) : List Peer :=
  let r1 := phase1 o round_number net
  let net2 := phase2 round_number r1.1 r1.2
  (phase3 o round_number evict net2).1

/-- The per-peer eviction step of the fixed simulator (uniform-random
policy), as plugged into phase 3. -/
def fixed_evict (o : RoundOracle) : Nat → Peer → Peer × List Nat :=
  fun pid p => p.remove_excess_connections (o.evict_sample pid)

/-- `NetworkSimulator.simulate_round` (uniform-random eviction). -/
def simulate_round (o : RoundOracle) (round_number : Int)
    (net : List Peer) : List Peer :=
  simulate_round_with o round_number (fixed_evict o) net

/-- `NetworkSimulator._initialize_network`: established members are mutually
Connected (`last_heard_from = 0`); each joining member starts with the
Identified records drawn by `identified_sample` (one
`random.sample(connected_ids, num_identified)` per candidate, kept abstract;
theorems carry its validity as a hypothesis). -/
def initialize_network (connected_ids candidate_ids : List Nat)
    (max_connections : Nat) (identified_sample : Nat → List Nat) :
    List Peer :=
  connected_ids.map (fun peer_id =>
    { id := peer_id, max_connections,
      known_peers := (connected_ids.filter (fun o => o ≠ peer_id)).map
        (fun other_id => (other_id, { state := .connected,
                                      last_heard_from := 0 })),
      pending_invites := [] })
  ++ candidate_ids.map (fun peer_id =>
    { id := peer_id, max_connections,
      known_peers := (identified_sample peer_id).map
        (fun identified_id => (identified_id, { state := .identified,
                                                last_heard_from := -1 })),
      pending_invites := [] })

/-- Iterated rounds of the fixed simulator from a start state, with one
oracle bundle per round index. -/
def run_rounds (oracles : Nat → RoundOracle) (net : List Peer) :
    Nat → List Peer
  | 0 => net
  | n + 1 => simulate_round (oracles n) (n : Int) (run_rounds oracles net n)

/-- No peer's relationship map records its own id, and no queued invite in
any inbox names its owner as sender (the latter is the auxiliary fact that
makes the former inductive through invite processing). -/
def noSelfNet (net : List Peer) : Prop :=
  ∀ p ∈ net, hasKey p.known_peers p.id = false ∧
    ∀ inv ∈ p.pending_invites, inv.sender_id ≠ p.id

/-! ## `DistanceOptimizedPeer` (static distance-bucketed eviction)

`DistanceOptimizedPeer.__init__` derives `connection_slack` and
`soft_max_connections` purely from `max_connections`, so the subclass carries
no extra state and its methods are embedded as alternative functions on
`Peer`. -/

/-- `self.connection_slack = max(2, max_connections // 4)`. -/
def connection_slack (max_connections : Nat) : Nat :=
  max 2 (max_connections / 4)

/-- `self.soft_max_connections = max_connections + self.connection_slack`. -/
def soft_max_connections (max_connections : Nat) : Nat :=
  max_connections + connection_slack max_connections

/-- Structural floor of `log2` (`Nat.log2` does not reduce in the kernel). -/
def log2go : Nat → Nat → Nat
  | 0, _ => 0
  | fuel + 1, n => if n ≤ 1 then 0 else 1 + log2go fuel (n / 2)

/-- `⌊log2 n⌋` (`= 0` for `n ≤ 1`); models exact `int(math.log2(n))` on the
integer ranges the simulators use. -/
def log2 (n : Nat) : Nat := log2go n n

/-- Append `v` to the list stored under key `k` of an association list. -/
def appendToKey {α : Type} (kp : List (Nat × List α)) (k : Nat) (v : α) :
    List (Nat × List α) :=
  kp.map (fun e => if e.1 == k then (e.1, e.2 ++ [v]) else e)

/-- The inner step of insertion sort: place an element before the first
member it `le`-precedes. -/
def insertLe {α : Type} (le : α → α → Bool) (x : α) : List α → List α
  | [] => [x]
  | y :: ys => if le x y then x :: y :: ys else y :: insertLe le x ys

/-- Python's `sorted` — a stable comparison sort — modelled by structural
insertion sort (all stable sorts agree under a total preorder
comparison). -/
def sortLe {α : Type} (le : α → α → Bool) : List α → List α
  | [] => []
  | x :: xs => insertLe le x (sortLe le xs)

/-- `DistanceOptimizedPeer.calculate_optimal_distribution`: geometric
distance buckets from self over the candidate population, bucket weights
`2^(k-i-1)` normalised to the connection budget.  `int(x)` of the
nonnegative exact float products is modelled by floor division (the bucket
boundaries `int(max_distance * 2**(i-k+1))` are exact powers-of-two scalings;
the weight normalisation is floor division as documented in the header).
Returns `(bucket_targets, buckets, bucket_ranges)`, all indexed by bucket
number. -/
def calculate_optimal_distribution (p : Peer) (all_peers : List Nat) :
    List (Nat × Nat) × List (Nat × List Nat) × List (Nat × Nat) :=
  let distances :=
    sortLe (fun a b : Nat × Nat => a.2 ≤ b.2)
      ((all_peers.filter (fun pid => pid ≠ p.id)).map
        (fun pid => (pid, xor_distance p.id pid)))
  let max_distance :=
    if distances = [] then 1 else (distances.map (·.2)).foldl max 0
  let num_buckets := min 8 distances.length
  let bucket_ranges := (List.range num_buckets).map (fun i =>
    (if i = 0 then 0 else max_distance / 2 ^ (num_buckets - 1 - i),
     if i = num_buckets - 1 then max_distance
     else max_distance / 2 ^ (num_buckets - 2 - i)))
  let buckets0 := (List.range num_buckets).map (fun i => (i, ([] : List Nat)))
  let buckets := distances.foldl
    (fun b e =>
      match bucket_ranges.findIdx? (fun r => r.1 ≤ e.2 ∧ e.2 ≤ r.2) with
      | some i => appendToKey b i e.1
      | none => b)
    buckets0
  let total_weight := ((List.range num_buckets).map
    (fun i => 2 ^ (num_buckets - i - 1))).sum
  let bucket_targets := (List.range num_buckets).map (fun i =>
    (i, max 1 (2 ^ (num_buckets - i - 1) * p.max_connections / total_weight)))
  (bucket_targets, buckets, bucket_ranges)

/-- The distribution dictionaries of both bucketed eviction variants:
fold the Connected peers into per-bucket lists keyed `0..n-1`, using the
variant's bucket-assignment function (a peer whose assignment misses every
bucket, or names an absent key, is silently skipped, as in the sources). -/
def distribution_of (assign : Nat → Option Nat) (n : Nat)
    (conn : List Nat) : List (Nat × List Nat) :=
  conn.foldl
    (fun b cp =>
      match assign cp with
      | some i => appendToKey b i cp
      | none => b)
    ((List.range n).map (fun i => (i, ([] : List Nat))))

/-- The per-bucket eviction pass shared by both bucketed variants: inside
each bucket exceeding its target, sort by distance from self and schedule
the furthest members first, up to the bucket's excess. -/
def bucket_phase_removals (key : Nat → Nat)
    (bucket_targets : List (Nat × Nat))
    (current_distribution : List (Nat × List Nat)) : List Nat :=
  bucket_targets.foldl
    (fun acc bt =>
      let current_peers := (lookupInfo current_distribution bt.1).getD []
      if current_peers.length > bt.2 then
        let sorted := sortLe (fun a b : Nat => key a ≤ key b) current_peers
        acc ++ (sorted.reverse.take
          (min (current_peers.length - bt.2) sorted.length))
      else acc)
    []

/-- Bucket assignment of `DistanceOptimizedPeer.optimize_connections`: the
first range containing the XOR distance from self. -/
def rangeAssign (p : Peer) (bucket_ranges : List (Nat × Nat)) (cp : Nat) :
    Option Nat :=
  bucket_ranges.findIdx?
    (fun range => range.1 ≤ xor_distance p.id cp ∧
      xor_distance p.id cp ≤ range.2)

/-- `DistanceOptimizedPeer.optimize_connections`.  The bare `except:` branch
is dead code — the embedded bucket computation is total — and is omitted.
Within each over-target bucket the furthest members are scheduled first;
any residual excess is drawn uniformly from the remaining Connected peers,
and the final slice caps the removals at the exact excess over the degree
bound. -/
def optimize_connections (p : Peer) (all_peers : List Nat)
    (sample : List Nat → Nat → List Nat) : List Nat :=
  if all_peers.length ≤ 1 then []
  else
    let current_connected := p.get_connected_peers
    if current_connected.length ≤ p.max_connections then []
    else
      let r := calculate_optimal_distribution p all_peers
      let bucket_targets := r.1
      let bucket_ranges := r.2.2
      let current_distribution := distribution_of
        (rangeAssign p bucket_ranges) bucket_targets.length
        current_connected
      let to_remove := bucket_phase_removals
        (fun cp => xor_distance p.id cp) bucket_targets
        current_distribution
      let excess := current_connected.length - p.max_connections
      let to_remove2 :=
        if to_remove.length < excess then
          let remaining_connected :=
            current_connected.filter (fun q => q ∉ to_remove)
          to_remove ++ sample remaining_connected
            (min (excess - to_remove.length) remaining_connected.length)
        else to_remove
      to_remove2.take excess

/-- `DistanceOptimizedPeer.remove_excess_connections`, as invoked by the
simulator (`all_peers` is always the registry key list, never `None`): a no-op
below the soft limit, otherwise delete the peers scheduled by
`optimize_connections`. -/
def DistanceOptimizedPeer.remove_excess_connections (p : Peer)
    (all_peers : List Nat) (sample : List Nat → Nat → List Nat) :
    Peer × List Nat :=
  let connected := p.get_connected_peers
  if connected.length ≤ soft_max_connections p.max_connections then (p, [])
  else
    let to_remove := optimize_connections p all_peers sample
    ({ p with known_peers :=
        to_remove.foldl (fun kp pid => deleteKey kp pid) p.known_peers },
     to_remove)

/-- `DistanceOptimizedSimulator.simulate_round`: the fixed-simulator phases
with the per-peer eviction replaced by the distance-bucketed policy applied
to the registry key list captured at the start of the round. -/
def simulate_round_distopt (o : RoundOracle) (round_number : Int)
    (net : List Peer) : List Peer :=
  let all_peer_ids := net.map (·.id)
  simulate_round_with o round_number
    (fun pid p => DistanceOptimizedPeer.remove_excess_connections p
      all_peer_ids (o.evict_sample pid)) net

/-! ## `ImprovedDistanceOptimizedPeer` (Kademlia-style prefix buckets) -/

/-- `self.connection_slack = max(2, max_connections // 3)` (improved
variant). -/
def connection_slack_improved (max_connections : Nat) : Nat :=
  max 2 (max_connections / 3)

/-- Soft limit of the improved variant. -/
def soft_max_connections_improved (max_connections : Nat) : Nat :=
  max_connections + connection_slack_improved max_connections

/-- `ImprovedDistanceOptimizedPeer._count_leading_zeros`: scan bits 31..0 of
the value until the first set bit (32 for zero). -/
def count_leading_zeros (value : Nat) : Nat :=
  if value = 0 then 32
  else
    (((List.range 32).reverse).foldl
      (fun (acc : Nat × Bool) i =>
        if acc.2 then acc
        else if value.testBit i then (acc.1, true)
        else (acc.1 + 1, false))
      (0, false)).1

/-- `ImprovedDistanceOptimizedPeer.calculate_routing_distribution`.  The
Python paths that `return {}` make the caller's tuple unpacking raise (caught
by its `except:`); they are modelled by `none`.  Weight tiers 4/3/2/1 by
shared-prefix length; the float normalisation and the proportional
scale-down are modelled by floor division. -/
def calculate_routing_distribution (p : Peer) (all_peers : List Nat) :
    Option (List (Nat × Nat) × List (Nat × List Nat)) :=
  if all_peers = [] then none
  else
    let other_peers := all_peers.filter (fun pid => pid ≠ p.id)
    if other_peers = [] then none
    else
      let buckets0 := (List.range 32).map (fun i => (i, ([] : List Nat)))
      let buckets := other_peers.foldl
        (fun b peer_id =>
          let distance := xor_distance p.id peer_id
          if distance = 0 then b
          else appendToKey b (min (count_leading_zeros distance) 31) peer_id)
        buckets0
      let non_empty_buckets := (buckets.filter (fun e => e.2 ≠ [])).map (·.1)
      if non_empty_buckets = [] then none
      else
        let weights := non_empty_buckets.map (fun bucket_id =>
          (bucket_id,
           if bucket_id ≥ 24 then 4
           else if bucket_id ≥ 16 then 3
           else if bucket_id ≥ 8 then 2
           else 1))
        let total_weight := (weights.map (·.2)).sum
        if total_weight = 0 then none
        else
          let target_distribution := weights.map (fun e =>
            (e.1, max 1 (e.2 * p.max_connections / total_weight)))
          let total_assigned := (target_distribution.map (·.2)).sum
          let final :=
            if total_assigned > p.max_connections then
              target_distribution.map (fun e =>
                (e.1, max 1 (e.2 * p.max_connections / total_assigned)))
            else target_distribution
          some (final, buckets)

/-- `ImprovedDistanceOptimizedPeer.optimize_connections_improved`: on any
degenerate bucket computation fall back to a uniform sample of the exact
excess; otherwise evict the furthest members of each over-target bucket and
then enough uniformly sampled survivors to reach the degree bound (no final
cap — the bucket step may over-remove). -/
def optimize_connections_improved (p : Peer) (all_peers : List Nat)
    (sample : List Nat → Nat → List Nat) : List Nat :=
  let current_connected := p.get_connected_peers
  if current_connected.length ≤ p.max_connections then []
  else
    let excess := current_connected.length - p.max_connections
    match calculate_routing_distribution p all_peers with
    | none => sample current_connected (min excess current_connected.length)
    | some (target_distribution, _) =>
      if target_distribution = [] then
        sample current_connected (min excess current_connected.length)
      else
        let current_distribution := distribution_of
          (fun cp =>
            let distance := xor_distance p.id cp
            if distance = 0 then none
            else some (min (count_leading_zeros distance) 31))
          32 current_connected
        let to_remove := bucket_phase_removals
          (fun cp => xor_distance p.id cp) target_distribution
          current_distribution
        let current_after_removal :=
          current_connected.filter (fun q => q ∉ to_remove)
        if current_after_removal.length > p.max_connections then
          to_remove ++ sample current_after_removal
            (min (current_after_removal.length - p.max_connections)
              current_after_removal.length)
        else to_remove

/-- `ImprovedDistanceOptimizedPeer.remove_excess_connections` as invoked by
the simulator (`all_peers` never `None`). -/
def ImprovedDistanceOptimizedPeer.remove_excess_connections (p : Peer)
    (all_peers : List Nat) (sample : List Nat → Nat → List Nat) :
    Peer × List Nat :=
  let connected := p.get_connected_peers
  if connected.length ≤ soft_max_connections_improved p.max_connections then
    (p, [])
  else
    let to_remove := optimize_connections_improved p all_peers sample
    ({ p with known_peers :=
        to_remove.foldl (fun kp pid => deleteKey kp pid) p.known_peers },
     to_remove)

/-! ## `GradientPeer` (ring metric, gradient ring-bucketed eviction)

The derived `distance_classes` dict of the Python class is a cache rebuilt
from `known_peers` after every mutation; the operations embedded here (state
transitions, invite processing, eviction, search) read only `known_peers`,
so the cache is not modelled. -/

/-- `PeerInfo` of the gradient simulator, extended with the stored distance
class of the peer. -/
structure GPeerInfo where
  state : PeerState
  last_heard_from : Int := -1
  distance_class : Nat
deriving DecidableEq, Repr

/-- `GradientPeer._calculate_distance_budgets`: allocate `5 * max_connections`
over the distance classes with exponential decay, stopping once the budget is
exhausted (the first argument is the class index, the second the remaining
loop iterations). -/
def calculateDistanceBudgetsGo : Nat → Nat → Nat → List (Nat × Nat)
  | _, 0, _ => []
  | distance_class, fuel + 1, remaining_budget =>
    let allocation :=
      if distance_class = 0 then max 1 (remaining_budget / 3)
      else max 1 (remaining_budget / 2 ^ distance_class)
    let entry := (distance_class, min allocation remaining_budget)
    let remaining2 := remaining_budget - allocation
    if remaining2 = 0 then [entry]
    else entry :: calculateDistanceBudgetsGo (distance_class + 1) fuel
      remaining2

/-- `GradientPeer`: the fields `address_space_size`, `max_distance_classes`
and `distance_class_budgets` are computed by `__init__` (see
`GradientPeer.init`). -/
structure GradientPeer where
  id : Nat
  max_connections : Nat
  address_space_bits : Nat
  address_space_size : Nat
  max_distance_classes : Nat
  distance_class_budgets : List (Nat × Nat)
  known_peers : List (Nat × GPeerInfo)
  pending_invites : List Invite
deriving DecidableEq, Repr

/-- `GradientPeer.__init__`. -/
def GradientPeer.init (peer_id max_connections address_space_bits : Nat) :
    GradientPeer :=
  let address_space_size := 2 ^ address_space_bits
  let max_distance_classes := log2 address_space_size + 1
  { id := peer_id, max_connections, address_space_bits, address_space_size,
    max_distance_classes,
    distance_class_budgets :=
      calculateDistanceBudgetsGo 0 max_distance_classes
        (max_connections * 5),
    known_peers := [], pending_invites := [] }

/-- `GradientPeer._ring_distance`: shortest way around the ring.  For ids
inside the address space this matches the Python expression exactly (there
`address_space_size - direct_distance` cannot be negative). -/
def GradientPeer.ring_distance (p : GradientPeer) (peer1_id peer2_id : Nat) :
    Nat :=
  let direct_distance := ((peer1_id : Int) - (peer2_id : Int)).natAbs
  min direct_distance (p.address_space_size - direct_distance)

/-- `GradientPeer._get_distance_class`. -/
def GradientPeer.get_distance_class (p : GradientPeer) (distance : Nat) :
    Nat :=
  if distance = 0 then 0
  else min (log2 distance + 1) (p.max_distance_classes - 1)

/-- `GradientPeer.add_peer`. -/
def GradientPeer.add_peer (p : GradientPeer) (peer_id : Nat)
    (state : PeerState) (last_heard_from : Int) : GradientPeer :=
  let distance_class := p.get_distance_class (p.ring_distance p.id peer_id)
  { p with known_peers :=
      if hasKey p.known_peers peer_id then
        p.known_peers.map (fun e =>
          if e.1 == peer_id then
            (e.1, { state, last_heard_from, distance_class }) else e)
      else p.known_peers ++ [(peer_id,
        { state, last_heard_from, distance_class })] }

/-- `GradientPeer.get_peer_state`. -/
def GradientPeer.get_peer_state (p : GradientPeer) (pid : Nat) :
    Option PeerState :=
  (lookupInfo p.known_peers pid).map (·.state)

/-- `GradientPeer.set_peer_state` (also refreshes the stored distance
class). -/
def GradientPeer.set_peer_state (p : GradientPeer) (pid : Nat)
    (st : PeerState) (round_num : Int) : GradientPeer :=
  let distance_class := p.get_distance_class (p.ring_distance p.id pid)
  { p with known_peers :=
      if hasKey p.known_peers pid then
        p.known_peers.map (fun e =>
          if e.1 == pid then
            (e.1, { state := st,
                    last_heard_from :=
                      if 0 ≤ round_num then round_num
                      else e.2.last_heard_from,
                    distance_class })
          else e)
      else p.known_peers ++ [(pid, { state := st,
                                     last_heard_from := round_num,
                                     distance_class })] }

/-- `GradientPeer.update_last_heard_from`. -/
def GradientPeer.update_last_heard_from (p : GradientPeer) (pid : Nat)
    (round_num : Int) : GradientPeer :=
  { p with known_peers :=
      p.known_peers.map (fun e =>
        if e.1 == pid then (e.1, { e.2 with last_heard_from := round_num })
        else e) }

/-- `GradientPeer.get_peers_by_state`. -/
def GradientPeer.get_peers_by_state (p : GradientPeer) (st : PeerState) :
    List Nat :=
  p.known_peers.filterMap (fun e => if e.2.state = st then some e.1 else none)

/-- `GradientPeer.get_connected_peers`. -/
def GradientPeer.get_connected_peers (p : GradientPeer) : List Nat :=
  p.get_peers_by_state .connected

/-- `GradientPeer.receive_invite`. -/
def GradientPeer.receive_invite (p : GradientPeer) (invite : Invite) :
    GradientPeer :=
  { p with pending_invites := p.pending_invites ++ [invite] }

/-- Reaction of `GradientPeer.process_invites` to one queued invite (same
transition table as the fixed simulator). -/
def GradientPeer.processInvite (p : GradientPeer) (round_num : Int)
    (invite : Invite) : GradientPeer × Option (Nat × PeerState) :=
  match p.get_peer_state invite.sender_id with
  | some .pending =>
      (p.set_peer_state invite.sender_id .connected round_num,
       some (invite.sender_id, .connected))
  | some .identified =>
      (p.set_peer_state invite.sender_id .prospect round_num,
       some (invite.sender_id, .prospect))
  | some .connected =>
      (p.update_last_heard_from invite.sender_id round_num,
       some (invite.sender_id, .connected))
  | some .prospect => (p, none)
  | none =>
      (p.set_peer_state invite.sender_id .prospect round_num,
       some (invite.sender_id, .prospect))

/-- `GradientPeer.process_invites`. -/
def GradientPeer.process_invites (p : GradientPeer) (round_num : Int) :
    GradientPeer × List (Nat × PeerState) :=
  let r := p.pending_invites.foldl
    (fun (acc : GradientPeer × List (Nat × PeerState)) invite =>
      let s := acc.1.processInvite round_num invite
      (s.1, acc.2 ++ s.2.toList))
    (p, [])
  ({ r.1 with pending_invites := [] }, r.2)

/-- Stored distance class of a known peer (`0` as a dummy for ids that are
not known; all callers look up members of `known_peers`). -/
def GradientPeer.classOf (p : GradientPeer) (pid : Nat) : Nat :=
  ((lookupInfo p.known_peers pid).map (·.distance_class)).getD 0

/-- The bucket loop of `GradientPeer.remove_excess_connections`: walk the
occupied distance classes from the furthest down, and inside each class over
its budget sample removals up to the remaining excess, stopping when the
excess is covered. -/
def gradientEvictGo (budgets : List (Nat × Nat)) (groups : Nat → List Nat)
    (sample : List Nat → Nat → List Nat) :
    List Nat → Nat → List Nat
  | [], _ => []
  | distance_class :: rest, excess_count =>
    if excess_count = 0 then []
    else
      let peers_in_class := groups distance_class
      let budget_for_class := (lookupInfo budgets distance_class).getD 1
      if peers_in_class.length > budget_for_class then
        let remove_count :=
          min (peers_in_class.length - budget_for_class) excess_count
        sample peers_in_class remove_count ++
          gradientEvictGo budgets groups sample rest
            (excess_count - remove_count)
      else gradientEvictGo budgets groups sample rest excess_count

/-- `GradientPeer.remove_excess_connections`: gradient-aware eviction against
the per-class budgets, furthest classes first. -/
def GradientPeer.remove_excess_connections (p : GradientPeer)
    (sample : List Nat → Nat → List Nat) : GradientPeer × List Nat :=
  let connected := p.get_connected_peers
  if connected.length ≤ p.max_connections then (p, [])
  else
    let groups := fun dc => connected.filter (fun pid => p.classOf pid = dc)
    let keys_desc := sortLe (fun a b : Nat => b ≤ a)
      ((connected.map p.classOf).dedup)
    let excess_count := connected.length - p.max_connections
    let to_remove := gradientEvictGo p.distance_class_budgets groups sample
      keys_desc excess_count
    ({ p with known_peers :=
        to_remove.foldl (fun kp pid => deleteKey kp pid) p.known_peers },
     to_remove)

/-- Registry lookup of the gradient simulator. -/
def gfindPeer (net : List GradientPeer) (pid : Nat) : Option GradientPeer :=
  net.find? (fun p => p.id == pid)

/-- `GradientNetworkSimulator._gradient_recursive_search`: the greedy walk of
the fixed simulator with the current peer's ring metric. -/
def gradient_recursive_search (net : List GradientPeer) (start_peer_id : Nat)
    (target_id : Nat) : (max_hops : Nat) → Nat
  | 0 => start_peer_id
  | max_hops + 1 =>
    match gfindPeer net start_peer_id with
    | none => start_peer_id
    | some current_peer =>
      let connected_peers := current_peer.get_connected_peers
      match minByKey connected_peers
          (fun pid => current_peer.ring_distance pid target_id) with
      | none => start_peer_id
      | some closest_connected =>
        let current_distance :=
          current_peer.ring_distance start_peer_id target_id
        let closest_distance :=
          current_peer.ring_distance closest_connected target_id
        if current_distance ≤ closest_distance then start_peer_id
        else gradient_recursive_search net closest_connected target_id
               max_hops

/-- The ring metric as a standalone function of the address-space size
(`GradientPeer.ring_distance` is this applied to the peer's
`address_space_size`). -/
def ringD (address_space_size a b : Nat) : Nat :=
  let direct_distance := ((a : Int) - (b : Int)).natAbs
  min direct_distance (address_space_size - direct_distance)

/-! ## Small concrete states used by witnesses and counterexamples -/

/-- Two mutually Connected fixed-simulator peers. -/
def demoPeerA : Peer :=
  { id := 1, max_connections := 2,
    known_peers := [(2, { state := .connected, last_heard_from := 0 })],
    pending_invites := [] }

/-- See `demoPeerA`. -/
def demoPeerB : Peer :=
  { id := 2, max_connections := 2,
    known_peers := [(1, { state := .connected, last_heard_from := 0 })],
    pending_invites := [] }

/-- A two-peer fixed-simulator registry. -/
def demoNet : List Peer := [demoPeerA, demoPeerB]

/-- A gradient peer in a 4-bit address space, Connected to peer 2. -/
def demoG1 : GradientPeer := (GradientPeer.init 1 2 4).add_peer 2 .connected 0

/-- A gradient peer in a 4-bit address space, Connected to peer 1. -/
def demoG2 : GradientPeer := (GradientPeer.init 2 2 4).add_peer 1 .connected 0

/-- A two-peer gradient registry. -/
def demoGNet : List GradientPeer := [demoG1, demoG2]

/-- A concrete oracle whose draws are all realizable: `random.randint`
returns `0`, every `random.sample(pool, k)` returns the first `k` elements
of the pool, `maint_sample` the first two Connected peers. -/
def trivOracle : RoundOracle :=
  { target := fun _ => 0,
    sample_starts := fun _ pool k => pool.take k,
    maint_sample := fun _ conn => conn.take 2,
    evict_sample := fun _ pool k => pool.take k }

/-- Peer 1 of the phase-boundary scenario: Connected to peers 2 and 3 and
first in iteration order. -/
def c3peerA : Peer :=
  { id := 1, max_connections := 5,
    known_peers := [(2, { state := .connected, last_heard_from := 0 }),
                    (3, { state := .connected, last_heard_from := 0 })],
    pending_invites := [] }

/-- Peer 2 of the phase-boundary scenario: knows peer 1 as Identified and has
an empty inbox at the start of phase 3. -/
def c3peerB : Peer :=
  { id := 2, max_connections := 5,
    known_peers := [(1, { state := .identified, last_heard_from := -1 })],
    pending_invites := [] }

/-- Peer 3 of the phase-boundary scenario: knows nobody. -/
def c3peerC : Peer :=
  { id := 3, max_connections := 5, known_peers := [],
    pending_invites := [] }

/-- Registry of the phase-boundary scenario, iteration order 1, 2, 3. -/
def c3net : List Peer := [c3peerA, c3peerB, c3peerC]

/-- Connected keys of a raw relationship map
(`Peer.get_connected_peers` unfolded). -/
def connOf (kp : List (Nat × PeerInfo)) : List Nat :=
  kp.filterMap (fun e =>
    if e.2.state = PeerState.connected then some e.1 else none)

/-- Four established peers bootstrapped mutually Connected with degree bound
2 (the initial state of a `DistanceOptimizedSimulator` run with
`connected_set_size=4`, `candidate_set_size=0`,
`max_connections_per_peer=2`). -/
def c1net : List Peer := initialize_network [1, 2, 3, 4] [] 2 (fun _ => [])

/-- A gradient peer over its degree bound (3 Connected, `max_connections`
2) whose occupied ring-distance classes are all within their budgets:
peers 7 and 9 sit in class 1 (budget 3) and peer 10 in class 2
(budget 1). -/
def c1gpeer : GradientPeer :=
  (((GradientPeer.init 8 2 4).add_peer 7 .connected 0).add_peer 9
    .connected 0).add_peer 10 .connected 0

/-- A peer with thirteen Connected relationships and degree bound 10 (soft
limit 12), whose Connected set fills every distance bucket to its exact
target so that the bucketed pass under-evicts and the residual
uniform-random pass must fire. -/
def c5peer : Peer :=
  { id := 0, max_connections := 10,
    known_peers := [1, 2, 3, 4, 5, 6, 7, 11, 21, 41, 81, 161, 320].map
      (fun k => (k, { state := .connected, last_heard_from := 0 })),
    pending_invites := [] }

/-- The candidate population of the `c5peer` scenario. -/
def c5all : List Nat := [0, 1, 2, 3, 4, 5, 6, 7, 11, 21, 41, 81, 161, 320]

/-- A peer with five Connected relationships and degree bound 2 (soft limit
4), used to exercise the degenerate-input eviction paths. -/
def c6peer : Peer :=
  { id := 0, max_connections := 2,
    known_peers := [1, 2, 3, 4, 5].map
      (fun k => (k, { state := .connected, last_heard_from := 0 })),
    pending_invites := [] }

/-! # Theorems -/

theorem lookupInfo_nil {α : Type} (pid : Nat) :
    lookupInfo ([] : List (Nat × α)) pid = none := rfl

theorem lookupInfo_cons {α : Type} (k : Nat) (v : α) (t : List (Nat × α))
    (pid : Nat) :
    lookupInfo ((k, v) :: t) pid =
      if k = pid then some v else lookupInfo t pid := by
  by_cases h : k = pid <;> simp [lookupInfo, List.find?_cons, h]

theorem hasKey_cons {α : Type} (k : Nat) (v : α) (t : List (Nat × α))
    (pid : Nat) :
    hasKey ((k, v) :: t) pid = (k = pid ∨ hasKey t pid : Bool) := by
  by_cases h : k = pid <;> simp [hasKey, lookupInfo_cons, h]

/-- Looking up the written key after `setInfoEntry`: the state is the new
one; the timestamp is refreshed only when the round is nonnegative and the
record existed, and is the raw round on a fresh record. -/
theorem lookupInfo_setInfoEntry_self (kp : List (Nat × PeerInfo)) (pid : Nat)
    (st : PeerState) (r : Int) :
    lookupInfo (setInfoEntry kp pid st r) pid =
      some { state := st,
             last_heard_from :=
               match lookupInfo kp pid with
               | some info => if 0 ≤ r then r else info.last_heard_from
               | none => r } := by
  induction kp with
  | nil => simp [setInfoEntry, hasKey, lookupInfo]
  | cons e t ih =>
    obtain ⟨k, v⟩ := e
    by_cases hk : k = pid
    · subst hk
      simp [setInfoEntry, hasKey_cons, lookupInfo_cons]
    · have hmain : setInfoEntry ((k, v) :: t) pid st r =
          (k, v) :: setInfoEntry t pid st r := by
        simp only [setInfoEntry, hasKey_cons, hk]
        by_cases ht : hasKey t pid = true
        · simp [ht, hk]
        · simp [ht, hk]
      rw [hmain, lookupInfo_cons, if_neg hk, ih, lookupInfo_cons, if_neg hk]

/-- Rewriting the entries of one key leaves the lookup of any other key
unchanged. -/
theorem lookupInfo_map_update {α : Type} (kp : List (Nat × α))
    (pid other : Nat) (f : Nat × α → α) (h : other ≠ pid) :
    lookupInfo (kp.map (fun e => if e.1 == pid then (e.1, f e) else e))
      other = lookupInfo kp other := by
  simp only [beq_iff_eq]
  induction kp with
  | nil => rfl
  | cons e t ih =>
    obtain ⟨k, v⟩ := e
    by_cases hk : k = pid
    · subst hk
      have hko : ¬ k = other := fun hh => h hh.symm
      simp [lookupInfo_cons, hko, ih]
    · by_cases hko : k = other
      · simp [lookupInfo_cons, h, hk, hko]
      · simp [lookupInfo_cons, hk, hko, ih]

/-- Appending a record for a different key does not change a lookup. -/
theorem lookupInfo_append_other {α : Type} (kp : List (Nat × α))
    (pid other : Nat) (v : α) (h : other ≠ pid) :
    lookupInfo (kp ++ [(pid, v)]) other = lookupInfo kp other := by
  induction kp with
  | nil =>
    have hpo : ¬ pid = other := fun hh => h hh.symm
    simp [lookupInfo_cons, lookupInfo_nil, hpo]
  | cons e t ih =>
    obtain ⟨k, w⟩ := e
    rw [List.cons_append, lookupInfo_cons, lookupInfo_cons]
    by_cases hko : k = other
    · simp [hko]
    · rw [if_neg hko, if_neg hko]
      exact ih

/-- Looking up another key after `setInfoEntry` is unchanged. -/
theorem lookupInfo_setInfoEntry_other (kp : List (Nat × PeerInfo))
    (pid other : Nat) (st : PeerState) (r : Int) (h : other ≠ pid) :
    lookupInfo (setInfoEntry kp pid st r) other = lookupInfo kp other := by
  unfold setInfoEntry
  by_cases hk : hasKey kp pid = true
  · rw [if_pos hk]
    exact lookupInfo_map_update kp pid other _ h
  · rw [if_neg hk]
    exact lookupInfo_append_other kp pid other _ h

/-- Rewriting the entries of a key: the lookup of that key becomes the
rewritten first binding. -/
theorem lookupInfo_map_update_self {α : Type} (kp : List (Nat × α))
    (pid : Nat) (f : Nat × α → α) (v : α) (h : lookupInfo kp pid = some v) :
    lookupInfo (kp.map (fun e => if e.1 == pid then (e.1, f e) else e))
      pid = some (f (pid, v)) := by
  simp only [beq_iff_eq]
  induction kp with
  | nil => simp [lookupInfo_nil] at h
  | cons e t ih =>
    obtain ⟨k, w⟩ := e
    by_cases hk : k = pid
    · subst hk
      rw [lookupInfo_cons, if_pos rfl] at h
      obtain rfl : w = v := by simpa using h
      simp [lookupInfo_cons]
    · rw [lookupInfo_cons, if_neg hk] at h
      simp only [List.map_cons, if_neg hk]
      rw [lookupInfo_cons, if_neg hk]
      exact ih h

/-- Appending a binding for an absent key makes it the lookup result. -/
theorem lookupInfo_append_self {α : Type} (kp : List (Nat × α)) (pid : Nat)
    (v : α) (h : hasKey kp pid = false) :
    lookupInfo (kp ++ [(pid, v)]) pid = some v := by
  induction kp with
  | nil => simp [lookupInfo_cons, lookupInfo_nil]
  | cons e t ih =>
    obtain ⟨k, w⟩ := e
    rw [hasKey_cons] at h
    simp only [decide_eq_false_iff_not] at h
    push_neg at h
    rw [List.cons_append, lookupInfo_cons, if_neg h.1]
    exact ih (by simpa using h.2)

/-- `hasKey` is the defined-ness of `lookupInfo`. -/
theorem hasKey_iff_lookup {α : Type} (kp : List (Nat × α)) (pid : Nat) :
    hasKey kp pid = true ↔ ∃ v, lookupInfo kp pid = some v := by
  simp [hasKey, Option.isSome_iff_exists]

/-- Self-lookup after `GradientPeer.set_peer_state` (same refresh rule as the
fixed simulator, plus the recomputed distance class). -/
theorem lookupInfo_gset_self (g : GradientPeer) (pid : Nat) (st : PeerState)
    (r : Int) :
    lookupInfo (g.set_peer_state pid st r).known_peers pid =
      some { state := st,
             last_heard_from :=
               match lookupInfo g.known_peers pid with
               | some info => if 0 ≤ r then r else info.last_heard_from
               | none => r,
             distance_class :=
               g.get_distance_class (g.ring_distance g.id pid) } := by
  unfold GradientPeer.set_peer_state
  by_cases hk : hasKey g.known_peers pid = true
  · obtain ⟨v, hv⟩ := (hasKey_iff_lookup _ _).mp hk
    simp only [hk, if_pos, hv]
    exact lookupInfo_map_update_self g.known_peers pid _ v hv
  · have hnone : lookupInfo g.known_peers pid = none := by
      cases hl : lookupInfo g.known_peers pid with
      | none => rfl
      | some v => exact absurd ((hasKey_iff_lookup _ _).mpr ⟨v, hl⟩) (by
          simpa using hk)
    simp only [hk, hnone]
    simpa using lookupInfo_append_self g.known_peers pid _ (by
      simpa using hk)

/-! ### Claim C9: the distance contract -/

/-- **C9.** For the XOR metric and, on ids inside the address space, the ring
metric: `distance` is symmetric, and zero exactly on equal ids. -/
theorem claim_C9_distance_contract (p : GradientPeer) (bits a b : Nat)
    (hsize : p.address_space_size = 2 ^ bits)
    (ha : a < 2 ^ bits) (hb : b < 2 ^ bits) :
    xor_distance a b = xor_distance b a ∧
    (xor_distance a b = 0 ↔ a = b) ∧
    p.ring_distance a b = p.ring_distance b a ∧
    (p.ring_distance a b = 0 ↔ a = b) := by
  refine ⟨Nat.xor_comm a b, Nat.xor_eq_zero, ?_, ?_⟩
  · simp only [GradientPeer.ring_distance]
    omega
  · simp only [GradientPeer.ring_distance, hsize]
    omega

/-- Witness for C9 at concrete inputs. -/
theorem claim_C9_distance_contract_witness :
    xor_distance 3 5 = xor_distance 5 3 ∧
    (xor_distance 3 5 = 0 ↔ (3 : Nat) = 5) ∧
    demoG1.ring_distance 3 5 = demoG1.ring_distance 5 3 ∧
    (demoG1.ring_distance 3 5 = 0 ↔ (3 : Nat) = 5) :=
  claim_C9_distance_contract demoG1 4 3 5 (by decide) (by decide) (by decide)

/-! ### Claim C4: the greedy walk never moves away from the target -/

/-- The XOR-metric walk ends at least as close to the target as it starts. -/
theorem xor_search_dist_le (net : List Peer) (target : Nat) :
    ∀ (fuel start : Nat),
      xor_distance (recursive_search_with_hop_limit net start target fuel)
        target ≤ xor_distance start target := by
  intro fuel
  induction fuel with
  | zero => intro start; exact le_refl _
  | succ n ih =>
    intro start
    rw [recursive_search_with_hop_limit]
    cases hfp : findPeer net start with
    | none => exact le_refl _
    | some peer =>
      dsimp only
      cases hmin : minByKey peer.get_connected_peers
          (fun pid => xor_distance pid target) with
      | none => exact le_refl _
      | some closest =>
        dsimp only
        by_cases hle : xor_distance start target ≤ xor_distance closest target
        · rw [if_pos hle]
        · rw [if_neg hle]
          exact le_trans (ih closest) (le_of_lt (lt_of_not_le hle))

/-- The ring-metric walk, on a registry with a uniform address-space size,
ends at least as close to the target as it starts. -/
theorem ring_search_dist_le (net : List GradientPeer) (S : Nat)
    (hS : ∀ p ∈ net, p.address_space_size = S) (target : Nat) :
    ∀ (fuel start : Nat),
      ringD S (gradient_recursive_search net start target fuel) target ≤
        ringD S start target := by
  intro fuel
  induction fuel with
  | zero => intro start; exact le_refl _
  | succ n ih =>
    intro start
    rw [gradient_recursive_search]
    cases hfp : gfindPeer net start with
    | none => exact le_refl _
    | some peer =>
      dsimp only
      cases hmin : minByKey peer.get_connected_peers
          (fun pid => peer.ring_distance pid target) with
      | none => exact le_refl _
      | some closest =>
        dsimp only
        have hmem : peer ∈ net := List.mem_of_find?_eq_some hfp
        have hpS : peer.address_space_size = S := hS peer hmem
        have hrd : ∀ x y, peer.ring_distance x y = ringD S x y := by
          intro x y
          simp [GradientPeer.ring_distance, ringD, hpS]
        by_cases hle : peer.ring_distance start target ≤
            peer.ring_distance closest target
        · rw [if_pos hle]
        · rw [if_neg hle]
          rw [hrd, hrd] at hle
          exact le_trans (ih closest) (le_of_lt (lt_of_not_le hle))

/-- **C4.** Each hop of either greedy walk moves only to a strictly closer
Connected peer, so the terminal node of
`_recursive_search_with_hop_limit` / `_gradient_recursive_search` is at most
as far from the target as the start node, for every registry, hop budget,
start and target. -/
theorem claim_C4_walk_distance_nonincreasing :
    (∀ (net : List Peer) (start target fuel : Nat),
       xor_distance (recursive_search_with_hop_limit net start target fuel)
         target ≤ xor_distance start target) ∧
    (∀ (net : List GradientPeer) (S : Nat),
       (∀ p ∈ net, p.address_space_size = S) →
       ∀ (start target fuel : Nat),
         ringD S (gradient_recursive_search net start target fuel) target ≤
           ringD S start target) :=
  ⟨fun net start target fuel => xor_search_dist_le net target fuel start,
   fun net S hS start target fuel => ring_search_dist_le net S hS target
     fuel start⟩

/-- Witness for C4 on the two-peer demo registries. -/
theorem claim_C4_walk_distance_nonincreasing_witness :
    xor_distance (recursive_search_with_hop_limit demoNet 1 2 10) 2 ≤
      xor_distance 1 2 ∧
    ringD 16 (gradient_recursive_search demoGNet 1 2 10) 2 ≤ ringD 16 1 2 :=
  ⟨claim_C4_walk_distance_nonincreasing.1 demoNet 1 2 10,
   claim_C4_walk_distance_nonincreasing.2 demoGNet 16 (by decide) 1 2 10⟩

/-! ### Claim C2: reactive invite transitions -/

/-- **C2.** Processing a received invite from sender `S` maps `S`'s record
Pending ↦ Connected, Identified ↦ Prospect, Connected ↦ Connected with the
timestamp refreshed to the current round, and creates a Prospect record when
`S` was unknown; `process_invites` leaves the queue empty.  Both the fixed
and the gradient peer follow this table. -/
theorem claim_C2_reactive_transitions (p : Peer) (g : GradientPeer) (r : Int)
    (inv : Invite) :
    (p.get_peer_state inv.sender_id = some .pending →
      (p.processInvite r inv).1.get_peer_state inv.sender_id =
        some .connected) ∧
    (p.get_peer_state inv.sender_id = some .identified →
      (p.processInvite r inv).1.get_peer_state inv.sender_id =
        some .prospect) ∧
    (∀ info, lookupInfo p.known_peers inv.sender_id = some info →
      info.state = .connected →
      lookupInfo (p.processInvite r inv).1.known_peers inv.sender_id =
        some { state := .connected, last_heard_from := r }) ∧
    (p.get_peer_state inv.sender_id = none →
      lookupInfo (p.processInvite r inv).1.known_peers inv.sender_id =
        some { state := .prospect, last_heard_from := r }) ∧
    (p.process_invites r).1.pending_invites = [] ∧
    (g.get_peer_state inv.sender_id = some .pending →
      (g.processInvite r inv).1.get_peer_state inv.sender_id =
        some .connected) ∧
    (g.get_peer_state inv.sender_id = some .identified →
      (g.processInvite r inv).1.get_peer_state inv.sender_id =
        some .prospect) ∧
    (∀ info, lookupInfo g.known_peers inv.sender_id = some info →
      info.state = .connected →
      lookupInfo (g.processInvite r inv).1.known_peers inv.sender_id =
        some { state := .connected, last_heard_from := r,
               distance_class := info.distance_class }) ∧
    (g.get_peer_state inv.sender_id = none →
      (g.processInvite r inv).1.get_peer_state inv.sender_id =
        some .prospect) ∧
    (g.process_invites r).1.pending_invites = [] := by
  refine ⟨?_, ?_, ?_, ?_, rfl, ?_, ?_, ?_, ?_, rfl⟩
  · intro h
    simp only [Peer.processInvite, h]
    simp [Peer.get_peer_state, Peer.set_peer_state,
      lookupInfo_setInfoEntry_self]
  · intro h
    simp only [Peer.processInvite, h]
    simp [Peer.get_peer_state, Peer.set_peer_state,
      lookupInfo_setInfoEntry_self]
  · intro info hinfo hst
    have h : p.get_peer_state inv.sender_id = some .connected := by
      simp [Peer.get_peer_state, hinfo, hst]
    simp only [Peer.processInvite, h]
    simp only [Peer.update_last_heard_from]
    have := lookupInfo_map_update_self p.known_peers inv.sender_id
      (fun e => { e.2 with last_heard_from := r }) info hinfo
    simp only [this]
    simp [hst.symm]
  · intro h
    simp only [Peer.processInvite, h]
    simp only [Peer.set_peer_state]
    rw [lookupInfo_setInfoEntry_self]
    have hnone : lookupInfo p.known_peers inv.sender_id = none := by
      simpa [Peer.get_peer_state] using h
    simp [hnone]
  · intro h
    simp only [GradientPeer.processInvite, h]
    simp [GradientPeer.get_peer_state, lookupInfo_gset_self]
  · intro h
    simp only [GradientPeer.processInvite, h]
    simp [GradientPeer.get_peer_state, lookupInfo_gset_self]
  · intro info hinfo hst
    have h : g.get_peer_state inv.sender_id = some .connected := by
      simp [GradientPeer.get_peer_state, hinfo, hst]
    simp only [GradientPeer.processInvite, h]
    simp only [GradientPeer.update_last_heard_from]
    have := lookupInfo_map_update_self g.known_peers inv.sender_id
      (fun e => { e.2 with last_heard_from := r }) info hinfo
    simp only [this]
    simp [hst.symm]
  · intro h
    simp only [GradientPeer.processInvite, h]
    simp [GradientPeer.get_peer_state, lookupInfo_gset_self]

/-- Witness for C2: an unknown sender becomes a Prospect and the queue is
drained, at a concrete peer. -/
theorem claim_C2_reactive_transitions_witness :
    (demoPeerA.get_peer_state 7 = none →
      lookupInfo (demoPeerA.processInvite 3 ⟨7, 3⟩).1.known_peers 7 =
        some { state := .prospect, last_heard_from := 3 }) ∧
    (demoPeerA.process_invites 3).1.pending_invites = [] :=
  ⟨fun h => ((claim_C2_reactive_transitions demoPeerA demoG1 3
      ⟨7, 3⟩).2.2.2.1) h,
   (claim_C2_reactive_transitions demoPeerA demoG1 3
      ⟨7, 3⟩).2.2.2.2.1⟩

/-! ### Registry lemmas shared by the round-engine claims -/

theorem findPeer_id {net : List Peer} {pid : Nat} {p : Peer}
    (h : findPeer net pid = some p) : p.id = pid := by
  have := List.find?_some h
  simpa using this

theorem memNet_iff_findPeer (net : List Peer) (pid : Nat) :
    memNet net pid = true ↔ ∃ p, findPeer net pid = some p := by
  rw [memNet, List.any_eq_true, findPeer]
  constructor
  · rintro ⟨x, hx, hpx⟩
    exact Option.isSome_iff_exists.mp (List.find?_isSome.mpr ⟨x, hx, hpx⟩)
  · rintro ⟨p, hp⟩
    exact ⟨p, List.mem_of_find?_eq_some hp, by simpa using List.find?_some hp⟩

theorem memNet_updatePeer (net : List Peer) (t : Nat) (f : Peer → Peer)
    (hf : idPreserving t f) (q : Nat) :
    memNet (updatePeer net t f) q = memNet net q := by
  induction net with
  | nil => rfl
  | cons p rest ih =>
    simp only [updatePeer, List.map_cons, memNet, List.any_cons] at *
    by_cases hp : p.id = t
    · rw [if_pos (by simpa using hp)]
      rw [hf p hp, hp, ih]
    · rw [if_neg (by simpa using hp)]
      rw [ih]

theorem findPeer_updatePeer_self {net : List Peer} {t : Nat} {p : Peer}
    (f : Peer → Peer) (hf : idPreserving t f)
    (h : findPeer net t = some p) :
    findPeer (updatePeer net t f) t = some (f p) := by
  induction net with
  | nil => simp [findPeer] at h
  | cons q rest ih =>
    simp only [findPeer, updatePeer, List.map_cons] at h ⊢
    by_cases hq : (q.id == t) = true
    · rw [if_pos hq]
      rw [List.find?_cons_of_pos (p := fun x : Peer => x.id == t) _ hq] at h
      have hfp : ((f q).id == t) = true := by
        simpa using hf q (by simpa using hq)
      obtain rfl : q = p := by simpa using h
      rw [List.find?_cons_of_pos (p := fun x : Peer => x.id == t) _ hfp]
    · rw [if_neg hq]
      rw [List.find?_cons_of_neg (p := fun x : Peer => x.id == t) _ hq] at h
      rw [List.find?_cons_of_neg (p := fun x : Peer => x.id == t) _ hq]
      exact ih h

theorem findPeer_updatePeer_other {net : List Peer} {t q : Nat}
    (f : Peer → Peer) (hf : idPreserving t f) (h : q ≠ t) :
    findPeer (updatePeer net t f) q = findPeer net q := by
  induction net with
  | nil => rfl
  | cons p rest ih =>
    simp only [findPeer, updatePeer, List.map_cons] at ih ⊢
    by_cases hp : p.id = t
    · rw [if_pos (by simpa using hp)]
      have hfq : ¬ ((f p).id == q) = true := by
        simp only [beq_iff_eq]
        rw [hf p hp]; exact fun hh => h hh.symm
      have hpq : ¬ (p.id == q) = true := by
        simp only [beq_iff_eq]
        rw [hp]; exact fun hh => h hh.symm
      rw [List.find?_cons_of_neg (p := fun x : Peer => x.id == q) _ hfq,
        List.find?_cons_of_neg (p := fun x : Peer => x.id == q) _ hpq]
      exact ih
    · rw [if_neg (by simpa using hp)]
      by_cases hpq : (p.id == q) = true
      · rw [List.find?_cons_of_pos (p := fun x : Peer => x.id == q) _ hpq,
          List.find?_cons_of_pos (p := fun x : Peer => x.id == q) _ hpq]
      · rw [List.find?_cons_of_neg (p := fun x : Peer => x.id == q) _ hpq,
          List.find?_cons_of_neg (p := fun x : Peer => x.id == q) _ hpq]
        exact ih

theorem Peer.processInvite_id (p : Peer) (r : Int) (inv : Invite) :
    (p.processInvite r inv).1.id = p.id := by
  unfold Peer.processInvite
  cases h : p.get_peer_state inv.sender_id with
  | none => rfl
  | some st => cases st <;> rfl

theorem Peer.processInvites_fold_id (r : Int) :
    ∀ (l : List Invite) (acc : Peer × List (Nat × PeerState)),
      (l.foldl (fun acc invite =>
        let s := acc.1.processInvite r invite
        (s.1, acc.2 ++ s.2.toList)) acc).1.id = acc.1.id := by
  intro l
  induction l with
  | nil => intro acc; rfl
  | cons inv t ih =>
    intro acc
    rw [List.foldl_cons, ih]
    exact Peer.processInvite_id acc.1 r inv

theorem Peer.process_invites_id (p : Peer) (r : Int) :
    (p.process_invites r).1.id = p.id := by
  unfold Peer.process_invites
  exact Peer.processInvites_fold_id r p.pending_invites (p, [])

/-- `Peer.process_invites` clears the inbox. -/
theorem process_invites_pending (p : Peer) (r : Int) :
    (p.process_invites r).1.pending_invites = [] := rfl

/-- The maintenance delivery fold appends only `⟨s, r⟩` invites to any other
peer's inbox, leaving every other field unchanged. -/
theorem deliver_fold_pending (s : Nat) (r : Int) :
    ∀ (sel : List Nat) (net : List Peer) (q : Nat) (p : Peer),
      findPeer net q = some p →
      ∃ k, findPeer
          (sel.foldl (fun net target_id =>
            if memNet net target_id then
              updatePeer net target_id
                (fun x => x.receive_invite ⟨s, r⟩)
            else net) net) q =
        some { p with pending_invites :=
          p.pending_invites ++ List.replicate k (⟨s, r⟩ : Invite) } := by
  intro sel
  induction sel with
  | nil =>
    intro net q p h
    exact ⟨0, by simpa using h⟩
  | cons t ts ih =>
    intro net q p h
    rw [List.foldl_cons]
    by_cases hmem : memNet net t = true
    · rw [if_pos hmem]
      by_cases htq : t = q
      · subst htq
        have h2 : findPeer (updatePeer net t
            (fun x => x.receive_invite ⟨s, r⟩)) t =
            some (p.receive_invite ⟨s, r⟩) :=
          findPeer_updatePeer_self _ (fun x hx => hx) h
        obtain ⟨k, hk⟩ := ih _ t (p.receive_invite ⟨s, r⟩) h2
        refine ⟨k + 1, ?_⟩
        rw [hk]
        simp [Peer.receive_invite, List.replicate_succ]
      · have h2 : findPeer (updatePeer net t
            (fun x => x.receive_invite ⟨s, r⟩)) q = some p := by
          rw [findPeer_updatePeer_other
            (fun x => x.receive_invite ⟨s, r⟩) (fun x hx => hx)
            (fun hh => htq hh.symm)]
          exact h
        obtain ⟨k, hk⟩ := ih _ q p h2
        exact ⟨k, hk⟩
    · rw [if_neg hmem]
      exact ih net q p h

/-- The maintenance delivery fold does not change registry membership. -/
theorem deliver_fold_mem (s : Nat) (r : Int) :
    ∀ (sel : List Nat) (net : List Peer) (x : Nat),
      memNet (sel.foldl (fun net target_id =>
        if memNet net target_id then
          updatePeer net target_id (fun q => q.receive_invite ⟨s, r⟩)
        else net) net) x = memNet net x := by
  intro sel
  induction sel with
  | nil => intro net x; rfl
  | cons t ts ih =>
    intro net x
    rw [List.foldl_cons]
    by_cases hmem : memNet net t = true
    · rw [if_pos hmem, ih, memNet_updatePeer net t
        (fun q => q.receive_invite ⟨s, r⟩) (fun q hq => hq)]
    · rw [if_neg hmem, ih]

/-- Phase-3 processing of one peer does not change registry membership. -/
theorem phase3_step_mem (o : RoundOracle) (r : Int)
    (evict : Nat → Peer → Peer × List Nat)
    (hev : ∀ pid p, (evict pid p).1.id = p.id)
    (net : List Peer) (pid x : Nat) :
    memNet (phase3_step o r evict net pid).1 x = memNet net x := by
  unfold phase3_step
  cases hfp : findPeer net pid with
  | none => rfl
  | some peer =>
    dsimp only
    have hpid : peer.id = pid := findPeer_id hfp
    have hpre1 : idPreserving pid (fun _ => (peer.process_invites r).1) :=
      fun _ _ => by rw [Peer.process_invites_id]; exact hpid
    set net1 := updatePeer net pid (fun _ => (peer.process_invites r).1)
      with hnet1
    set sel := if (peer.process_invites r).1.get_connected_peers.length ≥ 2
      then o.maint_sample pid (peer.process_invites r).1.get_connected_peers
      else [] with hsel
    set net2 := sel.foldl (fun net target_id =>
      if memNet net target_id then
        updatePeer net target_id
          (fun q => q.receive_invite ⟨peer.id, r⟩)
      else net) net1 with hnet2
    have hm2 : ∀ y, memNet net2 y = memNet net y := by
      intro y
      rw [hnet2, deliver_fold_mem, hnet1,
        memNet_updatePeer _ _ _ hpre1]
    cases hfp2 : findPeer net2 pid with
    | none => simpa using hm2 x
    | some q2 =>
      have hq2 : q2.id = pid := findPeer_id hfp2
      have hpre3 : idPreserving pid (fun _ => (evict pid q2).1) :=
        fun _ _ => by rw [hev]; exact hq2
      dsimp only
      rw [memNet_updatePeer _ _ _ hpre3]
      exact hm2 x

/-- The consumed-invite log of a phase-3 step is the processed peer's inbox
as of the start of the step. -/
theorem phase3_step_consumed (o : RoundOracle) (r : Int)
    (evict : Nat → Peer → Peer × List Nat)
    (net : List Peer) (pid : Nat) (peer : Peer)
    (hfp : findPeer net pid = some peer) :
    (phase3_step o r evict net pid).2.1 = peer.pending_invites := by
  unfold phase3_step
  rw [hfp]

/-- Effect of one phase-3 step on every other peer: only same-round invites
from the processed peer are appended to its inbox. -/
theorem phase3_step_other (o : RoundOracle) (r : Int)
    (evict : Nat → Peer → Peer × List Nat)
    (hev : ∀ pid p, (evict pid p).1.id = p.id)
    (net : List Peer) (pid q : Nat) (hq : q ≠ pid) (p : Peer)
    (h : findPeer net q = some p) :
    ∃ k, findPeer (phase3_step o r evict net pid).1 q =
      some { p with pending_invites :=
        p.pending_invites ++ List.replicate k (⟨pid, r⟩ : Invite) } := by
  unfold phase3_step
  cases hfp : findPeer net pid with
  | none => exact ⟨0, by simpa using h⟩
  | some peer =>
    dsimp only
    have hpid : peer.id = pid := findPeer_id hfp
    subst hpid
    have hpre1 : idPreserving peer.id
        (fun _ => (peer.process_invites r).1) :=
      fun _ _ => Peer.process_invites_id peer r
    have h1 : findPeer (updatePeer net peer.id
        (fun _ => (peer.process_invites r).1)) q = some p := by
      rw [findPeer_updatePeer_other _ hpre1 hq]; exact h
    obtain ⟨k, hk⟩ := deliver_fold_pending peer.id r
      (if (peer.process_invites r).1.get_connected_peers.length ≥ 2
       then o.maint_sample peer.id
         (peer.process_invites r).1.get_connected_peers
       else [])
      (updatePeer net peer.id (fun _ => (peer.process_invites r).1)) q p h1
    refine ⟨k, ?_⟩
    cases hfp2 : findPeer (((if (peer.process_invites r
        ).1.get_connected_peers.length ≥ 2
      then o.maint_sample peer.id
        (peer.process_invites r).1.get_connected_peers
      else []).foldl (fun net target_id =>
        if memNet net target_id then
          updatePeer net target_id
            (fun x => x.receive_invite ⟨peer.id, r⟩)
        else net) (updatePeer net peer.id
          (fun _ => (peer.process_invites r).1)))) peer.id with
    | none => simpa [hfp2] using hk
    | some q2 =>
      have hq2 : q2.id = peer.id := findPeer_id hfp2
      have hpre3 : idPreserving peer.id (fun _ => (evict peer.id q2).1) :=
        fun _ _ => by rw [hev]; exact hq2
      simp only [hfp2]
      rw [findPeer_updatePeer_other _ hpre3 hq]
      exact hk

/-- Inbox-provenance invariant of the phase-3 loop: each processed peer
consumes its inbox as decomposed into a base part (present when the loop
started) plus same-round maintenance invites from peers already processed. -/
theorem phase3_go_spec (o : RoundOracle) (r : Int)
    (evict : Nat → Peer → Peer × List Nat)
    (hev : ∀ pid p, (evict pid p).1.id = p.id) :
    ∀ (ids : List Nat) (net : List Peer)
      (logs : List (Nat × List Invite × List Nat))
      (base : Nat → List Invite) (done : List Nat),
      ids.Nodup →
      (∀ q ∈ ids, memNet net q = true) →
      (∀ q ∈ ids, ∀ p, findPeer net q = some p →
        ∃ extra, p.pending_invites = base q ++ extra ∧
          ∀ inv ∈ extra, inv.round_sent = r ∧ inv.sender_id ∈ done) →
      ∀ q consumed sent,
        (q, consumed, sent) ∈ (phase3_go o r evict ids net logs).2 →
        (q, consumed, sent) ∈ logs ∨
        (q ∈ ids ∧ ∃ extra, consumed = base q ++ extra ∧
          ∀ inv ∈ extra, inv.round_sent = r ∧
            (inv.sender_id ∈ done ∨
             inv.sender_id ∈ ids.takeWhile (fun x => x != q))) := by
  intro ids
  induction ids with
  | nil =>
    intro net logs base done _ _ _ q c s hmem
    exact Or.inl (by simpa [phase3_go] using hmem)
  | cons pid rest ih =>
    intro net logs base done hnd hmemAll hinbox q c s hmem
    rw [phase3_go] at hmem
    obtain ⟨hpidrest, hnd'⟩ := List.nodup_cons.mp hnd
    obtain ⟨peer, hpeer⟩ := (memNet_iff_findPeer net pid).mp
      (hmemAll pid (by simp))
    obtain ⟨extra0, hex0, hsend0⟩ := hinbox pid (by simp) peer hpeer
    have hmem' : ∀ x ∈ rest,
        memNet (phase3_step o r evict net pid).1 x = true := by
      intro x hx
      rw [phase3_step_mem o r evict hev]
      exact hmemAll x (List.mem_cons_of_mem _ hx)
    have hinbox' : ∀ x ∈ rest, ∀ p',
        findPeer (phase3_step o r evict net pid).1 x = some p' →
        ∃ extra, p'.pending_invites = base x ++ extra ∧
          ∀ inv ∈ extra, inv.round_sent = r ∧
            inv.sender_id ∈ done ++ [pid] := by
      intro x hx p' hp'
      have hxpid : x ≠ pid := fun hh => hpidrest (hh ▸ hx)
      obtain ⟨p0, hp0⟩ := (memNet_iff_findPeer net x).mp
        (hmemAll x (List.mem_cons_of_mem _ hx))
      obtain ⟨k, hk⟩ := phase3_step_other o r evict hev net pid x hxpid
        p0 hp0
      rw [hp'] at hk
      obtain rfl : p' = _ := by exact (Option.some_inj.mp hk)
      obtain ⟨extra, hexeq, hsend⟩ := hinbox x
        (List.mem_cons_of_mem _ hx) p0 hp0
      refine ⟨extra ++ List.replicate k (⟨pid, r⟩ : Invite), ?_, ?_⟩
      · show p0.pending_invites ++ _ = _
        rw [hexeq, List.append_assoc]
      · intro inv hi
        rcases List.mem_append.mp hi with hie | hir
        · obtain ⟨h1, h2⟩ := hsend inv hie
          exact ⟨h1, List.mem_append_left _ h2⟩
        · obtain rfl := List.eq_of_mem_replicate hir
          exact ⟨rfl, List.mem_append_right _ (by simp)⟩
    have := ih (phase3_step o r evict net pid).1
      (logs ++ [(pid, (phase3_step o r evict net pid).2.1,
        (phase3_step o r evict net pid).2.2)])
      base (done ++ [pid]) hnd' hmem' hinbox' q c s hmem
    rcases this with hin | ⟨hqrest, extra, hceq, hsend⟩
    · rcases List.mem_append.mp hin with hl | hr2
      · exact Or.inl hl
      · simp only [List.mem_singleton, Prod.mk.injEq] at hr2
        obtain ⟨rfl, rfl, rfl⟩ := hr2
        refine Or.inr ⟨by simp, extra0, ?_, ?_⟩
        · rw [phase3_step_consumed o r evict net q peer hpeer]
          exact hex0
        · intro inv hi
          exact ⟨(hsend0 inv hi).1, Or.inl (hsend0 inv hi).2⟩
    · have hqpid : q ≠ pid := fun hh => hpidrest (hh ▸ hqrest)
      refine Or.inr ⟨List.mem_cons_of_mem _ hqrest, extra, hceq, ?_⟩
      intro inv hi
      obtain ⟨h1, h2⟩ := hsend inv hi
      refine ⟨h1, ?_⟩
      have htw : (pid :: rest).takeWhile (fun x => x != q) =
          pid :: rest.takeWhile (fun x => x != q) := by
        rw [List.takeWhile_cons_of_pos]
        simpa using fun hh => hqpid hh.symm
      rcases h2 with hdone | hrest2
      · rcases List.mem_append.mp hdone with hd | hp
        · exact Or.inl hd
        · simp only [List.mem_singleton] at hp
          subst hp
          rw [htw]
          exact Or.inr (by simp)
      · rw [htw]
        exact Or.inr (List.mem_cons_of_mem _ hrest2)

/-- The uniform-random eviction step never moves a peer to a different
registry key. -/
theorem fixed_evict_id (o : RoundOracle) (pid : Nat) (p : Peer) :
    ((fixed_evict o) pid p).1.id = p.id := by
  unfold fixed_evict Peer.remove_excess_connections
  dsimp only
  split <;> rfl

/-- The uniform-random eviction step never touches the inbox. -/
theorem fixed_evict_pending (o : RoundOracle) (pid : Nat) (p : Peer) :
    ((fixed_evict o) pid p).1.pending_invites = p.pending_invites := by
  unfold fixed_evict Peer.remove_excess_connections
  dsimp only
  split <;> rfl

/-- The log accumulator of the phase-3 loop is write-only: the resulting
registry is independent of it, and the produced log is appended to it. -/
theorem phase3_go_logs (o : RoundOracle) (r : Int)
    (evict : Nat → Peer → Peer × List Nat) :
    ∀ (ids : List Nat) (net : List Peer)
      (logs : List (Nat × List Invite × List Nat)),
      (phase3_go o r evict ids net logs).1 =
        (phase3_go o r evict ids net []).1 ∧
      (phase3_go o r evict ids net logs).2 =
        logs ++ (phase3_go o r evict ids net []).2 := by
  intro ids
  induction ids with
  | nil =>
    intro net logs
    exact ⟨rfl, by simp [phase3_go]⟩
  | cons pid rest ih =>
    intro net logs
    simp only [phase3_go, List.nil_append]
    constructor
    · exact ((ih (phase3_step o r evict net pid).1
          (logs ++ [(pid, (phase3_step o r evict net pid).2.1,
            (phase3_step o r evict net pid).2.2)])).1).trans
        ((ih (phase3_step o r evict net pid).1
          [(pid, (phase3_step o r evict net pid).2.1,
            (phase3_step o r evict net pid).2.2)]).1).symm
    · rw [(ih (phase3_step o r evict net pid).1
          (logs ++ [(pid, (phase3_step o r evict net pid).2.1,
            (phase3_step o r evict net pid).2.2)])).2,
        (ih (phase3_step o r evict net pid).1
          [(pid, (phase3_step o r evict net pid).2.1,
            (phase3_step o r evict net pid).2.2)]).2]
      simp

/-- The maintenance delivery fold appends to any registered peer's inbox
exactly one `⟨s, r⟩` invite per occurrence of its id among the targets. -/
theorem deliver_fold_pending_exact (s : Nat) (r : Int) :
    ∀ (sel : List Nat) (net : List Peer) (q : Nat) (p : Peer),
      findPeer net q = some p →
      findPeer (sel.foldl (fun net target_id =>
          if memNet net target_id then
            updatePeer net target_id
              (fun x => x.receive_invite ⟨s, r⟩)
          else net) net) q =
        some { p with pending_invites :=
          p.pending_invites ++
            List.replicate (sel.count q) (⟨s, r⟩ : Invite) } := by
  intro sel
  induction sel with
  | nil =>
    intro net q p h
    simpa using h
  | cons t ts ih =>
    intro net q p h
    rw [List.foldl_cons]
    by_cases htq : t = q
    · subst htq
      rw [if_pos ((memNet_iff_findPeer net t).mpr ⟨p, h⟩)]
      have h2 : findPeer (updatePeer net t
          (fun x => x.receive_invite ⟨s, r⟩)) t =
          some (p.receive_invite ⟨s, r⟩) :=
        findPeer_updatePeer_self _ (fun x hx => hx) h
      rw [ih _ t (p.receive_invite ⟨s, r⟩) h2]
      simp [Peer.receive_invite, List.count_cons, List.replicate_succ]
    · have hcnt : (t :: ts).count q = ts.count q := by
        rw [List.count_cons]
        simp [htq]
      by_cases hmem : memNet net t = true
      · rw [if_pos hmem]
        have h2 : findPeer (updatePeer net t
            (fun x => x.receive_invite ⟨s, r⟩)) q = some p := by
          rw [findPeer_updatePeer_other
            (fun x => x.receive_invite ⟨s, r⟩) (fun x hx => hx)
            (fun hh => htq hh.symm)]
          exact h
        rw [ih _ q p h2, hcnt]
      · rw [if_neg hmem]
        rw [ih net q p h, hcnt]

/-- Exact effect of one phase-3 step on every other registered peer: its
inbox gains one same-round invite from the processed peer per time it was
selected as a maintenance target, and nothing else changes. -/
theorem phase3_step_other_exact (o : RoundOracle) (r : Int)
    (evict : Nat → Peer → Peer × List Nat)
    (hev : ∀ pid p, (evict pid p).1.id = p.id)
    (net : List Peer) (pid q : Nat) (hq : q ≠ pid) (p : Peer)
    (h : findPeer net q = some p) :
    findPeer (phase3_step o r evict net pid).1 q =
      some { p with pending_invites :=
        (p.pending_invites ++
          List.replicate ((phase3_step o r evict net pid).2.2.count q)
            (⟨pid, r⟩ : Invite)) } := by
  unfold phase3_step
  cases hfp : findPeer net pid with
  | none => simpa using h
  | some peer =>
    dsimp only
    have hpid : peer.id = pid := findPeer_id hfp
    subst hpid
    have hpre1 : idPreserving peer.id
        (fun _ => (peer.process_invites r).1) :=
      fun _ _ => Peer.process_invites_id peer r
    have h1 : findPeer (updatePeer net peer.id
        (fun _ => (peer.process_invites r).1)) q = some p := by
      rw [findPeer_updatePeer_other _ hpre1 hq]; exact h
    have h2 := deliver_fold_pending_exact peer.id r
      (if (peer.process_invites r).1.get_connected_peers.length ≥ 2
       then o.maint_sample peer.id
         (peer.process_invites r).1.get_connected_peers
       else [])
      (updatePeer net peer.id (fun _ => (peer.process_invites r).1)) q p h1
    cases hfp2 : findPeer (((if (peer.process_invites r
        ).1.get_connected_peers.length ≥ 2
      then o.maint_sample peer.id
        (peer.process_invites r).1.get_connected_peers
      else []).foldl (fun net target_id =>
        if memNet net target_id then
          updatePeer net target_id
            (fun x => x.receive_invite ⟨peer.id, r⟩)
        else net) (updatePeer net peer.id
          (fun _ => (peer.process_invites r).1)))) peer.id with
    | none => simpa [hfp2] using h2
    | some q2 =>
      have hq2 : q2.id = peer.id := findPeer_id hfp2
      have hpre3 : idPreserving peer.id (fun _ => (evict peer.id q2).1) :=
        fun _ _ => by rw [hev]; exact hq2
      simp only [hfp2]
      rw [findPeer_updatePeer_other _ hpre3 hq]
      exact h2

/-- Exact effect of a phase-3 step on the processed peer's own inbox: it is
drained and then holds exactly the peer's own same-round maintenance
invites addressed to itself (none, in a registry without self
relationships). -/
theorem phase3_step_self_pending (o : RoundOracle) (r : Int)
    (evict : Nat → Peer → Peer × List Nat)
    (hev : ∀ pid p, (evict pid p).1.id = p.id)
    (hevpend : ∀ pid p,
      (evict pid p).1.pending_invites = p.pending_invites)
    (net : List Peer) (pid : Nat) (peer : Peer)
    (hfp : findPeer net pid = some peer) :
    ∃ p2, findPeer (phase3_step o r evict net pid).1 pid = some p2 ∧
      p2.pending_invites =
        List.replicate ((phase3_step o r evict net pid).2.2.count pid)
          (⟨pid, r⟩ : Invite) := by
  unfold phase3_step
  rw [hfp]
  dsimp only
  have hpid : peer.id = pid := findPeer_id hfp
  subst hpid
  have hpre1 : idPreserving peer.id
      (fun _ => (peer.process_invites r).1) :=
    fun _ _ => Peer.process_invites_id peer r
  have h1 : findPeer (updatePeer net peer.id
      (fun _ => (peer.process_invites r).1)) peer.id =
      some (peer.process_invites r).1 :=
    findPeer_updatePeer_self _ hpre1 hfp
  have h2 := deliver_fold_pending_exact peer.id r
    (if (peer.process_invites r).1.get_connected_peers.length ≥ 2
     then o.maint_sample peer.id
       (peer.process_invites r).1.get_connected_peers
     else [])
    (updatePeer net peer.id (fun _ => (peer.process_invites r).1)) peer.id
    (peer.process_invites r).1 h1
  cases hfp2 : findPeer (((if (peer.process_invites r
      ).1.get_connected_peers.length ≥ 2
    then o.maint_sample peer.id
      (peer.process_invites r).1.get_connected_peers
    else []).foldl (fun net target_id =>
      if memNet net target_id then
        updatePeer net target_id
          (fun x => x.receive_invite ⟨peer.id, r⟩)
      else net) (updatePeer net peer.id
        (fun _ => (peer.process_invites r).1)))) peer.id with
  | none =>
    rw [hfp2] at h2
    simp at h2
  | some q2 =>
    have hq2id : q2.id = peer.id := findPeer_id hfp2
    have hpre3 : idPreserving peer.id (fun _ => (evict peer.id q2).1) :=
      fun _ _ => by rw [hev]; exact hq2id
    refine ⟨_, findPeer_updatePeer_self _ hpre3 hfp2, ?_⟩
    show (evict peer.id q2).1.pending_invites = _
    rw [hevpend]
    rw [hfp2] at h2
    obtain rfl := Option.some_inj.mp h2
    simp [process_invites_pending]

/-- Exact effect of the whole phase-3 loop on a peer that takes no turn:
its inbox gains, turn by turn in order, one same-round invite per time
that turn selected it as a maintenance target. -/
theorem phase3_go_other_exact (o : RoundOracle) (r : Int)
    (evict : Nat → Peer → Peer × List Nat)
    (hev : ∀ pid p, (evict pid p).1.id = p.id) :
    ∀ (ids : List Nat) (net : List Peer) (q : Nat), q ∉ ids →
      ∀ p, findPeer net q = some p →
      findPeer (phase3_go o r evict ids net []).1 q =
        some { p with pending_invites := p.pending_invites ++
          (((phase3_go o r evict ids net []).2).map (fun e =>
            List.replicate (e.2.2.count q)
              (⟨e.1, r⟩ : Invite))).flatten } := by
  intro ids
  induction ids with
  | nil =>
    intro net q _ p h
    simpa [phase3_go] using h
  | cons pid rest ih =>
    intro net q hq p h
    have hqpid : q ≠ pid := fun hh => hq (hh ▸ List.mem_cons_self pid rest)
    have hqrest : q ∉ rest := fun hh => hq (List.mem_cons_of_mem _ hh)
    have hstep := phase3_step_other_exact o r evict hev net pid q hqpid p h
    have hih := ih (phase3_step o r evict net pid).1 q hqrest _ hstep
    rw [show (phase3_go o r evict (pid :: rest) net []).1 =
        (phase3_go o r evict rest (phase3_step o r evict net pid).1
          [(pid, (phase3_step o r evict net pid).2.1,
            (phase3_step o r evict net pid).2.2)]).1 from rfl,
      (phase3_go_logs o r evict rest (phase3_step o r evict net pid).1
        [(pid, (phase3_step o r evict net pid).2.1,
          (phase3_step o r evict net pid).2.2)]).1, hih,
      show (phase3_go o r evict (pid :: rest) net []).2 =
        (phase3_go o r evict rest (phase3_step o r evict net pid).1
          [(pid, (phase3_step o r evict net pid).2.1,
            (phase3_step o r evict net pid).2.2)]).2 from rfl,
      (phase3_go_logs o r evict rest (phase3_step o r evict net pid).1
        [(pid, (phase3_step o r evict net pid).2.1,
          (phase3_step o r evict net pid).2.2)]).2]
    simp [List.append_assoc]

/-- Exact bookkeeping of phase 3: relative to the state at the start of the
loop, every turn's consumed list is its start inbox followed by one
same-round invite per time each strictly earlier turn selected it, and the
resulting inbox holds the corresponding invites of the turns from its own
position onward. -/
theorem phase3_go_exact (o : RoundOracle) (r : Int)
    (evict : Nat → Peer → Peer × List Nat)
    (hev : ∀ pid p, (evict pid p).1.id = p.id)
    (hevpend : ∀ pid p,
      (evict pid p).1.pending_invites = p.pending_invites) :
    ∀ (ids : List Nat) (net : List Peer), ids.Nodup →
      (∀ x ∈ ids, memNet net x = true) →
      ((phase3_go o r evict ids net []).2.map (·.1) = ids) ∧
      (∀ i q consumed sent,
        (phase3_go o r evict ids net []).2.get? i =
          some (q, consumed, sent) →
        ∃ p, findPeer net q = some p ∧
          consumed = p.pending_invites ++
            (((phase3_go o r evict ids net []).2.take i).map (fun e =>
              List.replicate (e.2.2.count q)
                (⟨e.1, r⟩ : Invite))).flatten) ∧
      (∀ i q consumed sent,
        (phase3_go o r evict ids net []).2.get? i =
          some (q, consumed, sent) →
        ∃ p2, findPeer (phase3_go o r evict ids net []).1 q = some p2 ∧
          p2.pending_invites =
            (((phase3_go o r evict ids net []).2.drop i).map (fun e =>
              List.replicate (e.2.2.count q)
                (⟨e.1, r⟩ : Invite))).flatten) := by
  intro ids
  induction ids with
  | nil =>
    intro net _ _
    refine ⟨rfl, ?_, ?_⟩
    · intro i q c s hget
      simp [phase3_go] at hget
    · intro i q c s hget
      simp [phase3_go] at hget
  | cons pid rest ih =>
    intro net hnd hmem
    obtain ⟨hpidrest, hnd'⟩ := List.nodup_cons.mp hnd
    obtain ⟨peer, hpeer⟩ := (memNet_iff_findPeer net pid).mp
      (hmem pid (List.mem_cons_self pid rest))
    have hmem' : ∀ x ∈ rest,
        memNet (phase3_step o r evict net pid).1 x = true := by
      intro x hx
      rw [phase3_step_mem o r evict hev]
      exact hmem x (List.mem_cons_of_mem _ hx)
    obtain ⟨iha, ihb, ihc⟩ :=
      ih (phase3_step o r evict net pid).1 hnd' hmem'
    have hLe : (phase3_go o r evict (pid :: rest) net []).2 =
        (pid, (phase3_step o r evict net pid).2.1,
          (phase3_step o r evict net pid).2.2) ::
        (phase3_go o r evict rest
          (phase3_step o r evict net pid).1 []).2 := by
      rw [show (phase3_go o r evict (pid :: rest) net []).2 =
          (phase3_go o r evict rest (phase3_step o r evict net pid).1
            [(pid, (phase3_step o r evict net pid).2.1,
              (phase3_step o r evict net pid).2.2)]).2 from rfl,
        (phase3_go_logs o r evict rest (phase3_step o r evict net pid).1
          [(pid, (phase3_step o r evict net pid).2.1,
            (phase3_step o r evict net pid).2.2)]).2]
      rfl
    have hL1 : (phase3_go o r evict (pid :: rest) net []).1 =
        (phase3_go o r evict rest
          (phase3_step o r evict net pid).1 []).1 := by
      rw [show (phase3_go o r evict (pid :: rest) net []).1 =
          (phase3_go o r evict rest (phase3_step o r evict net pid).1
            [(pid, (phase3_step o r evict net pid).2.1,
              (phase3_step o r evict net pid).2.2)]).1 from rfl,
        (phase3_go_logs o r evict rest (phase3_step o r evict net pid).1
          [(pid, (phase3_step o r evict net pid).2.1,
            (phase3_step o r evict net pid).2.2)]).1]
    refine ⟨?_, ?_, ?_⟩
    · rw [hLe, List.map_cons, iha]
    · intro i q c s hget
      rw [hLe] at hget ⊢
      cases i with
      | zero =>
        rw [List.get?_cons_zero] at hget
        simp only [Option.some.injEq, Prod.mk.injEq] at hget
        obtain ⟨rfl, rfl, rfl⟩ := hget
        refine ⟨peer, hpeer, ?_⟩
        rw [phase3_step_consumed o r evict net pid peer hpeer]
        simp
      | succ j =>
        rw [List.get?_cons_succ] at hget
        obtain ⟨p1, hp1, hc⟩ := ihb j q c s hget
        have hqrest : q ∈ rest := by
          rw [← iha]
          exact List.mem_map_of_mem _ (List.get?_mem hget)
        have hqpid : q ≠ pid := fun hh => hpidrest (hh ▸ hqrest)
        obtain ⟨p0, hp0⟩ := (memNet_iff_findPeer net q).mp
          (hmem q (List.mem_cons_of_mem _ hqrest))
        have hstep := phase3_step_other_exact o r evict hev net pid q
          hqpid p0 hp0
        rw [hstep] at hp1
        obtain rfl := (Option.some_inj.mp hp1).symm
        refine ⟨p0, hp0, ?_⟩
        rw [hc]
        simp [List.take_succ_cons, List.append_assoc]
    · intro i q c s hget
      rw [hLe] at hget ⊢
      rw [hL1]
      cases i with
      | zero =>
        rw [List.get?_cons_zero] at hget
        simp only [Option.some.injEq, Prod.mk.injEq] at hget
        obtain ⟨rfl, rfl, rfl⟩ := hget
        obtain ⟨p3, hp3, hp3pend⟩ := phase3_step_self_pending o r evict
          hev hevpend net pid peer hpeer
        have hfinal := phase3_go_other_exact o r evict hev rest
          (phase3_step o r evict net pid).1 pid hpidrest p3 hp3
        refine ⟨_, hfinal, ?_⟩
        simp [hp3pend]
      | succ j =>
        rw [List.get?_cons_succ] at hget
        obtain ⟨p2, hp2, hp2pend⟩ := ihc j q c s hget
        refine ⟨p2, hp2, ?_⟩
        rw [hp2pend]
        simp [List.drop_succ_cons]

/-! ### Claim C3: phase-boundary visibility of maintenance invites -/

/-- **C3 (amended).** Phase 3 takes one turn per peer in registry order,
and the invites each turn's `process_invites` call consumes are
**exactly** its inbox as of the start of phase 3 followed, for each
strictly earlier turn in order, by one same-round maintenance invite per
time that turn selected this peer as a maintenance target; dually, the
peer's inbox at the end of phase 3 holds exactly the same-round
maintenance invites of the turns from its own position onward, which are
therefore not consumed in this round and remain queued for the next.
(The original claim — that no same-round maintenance invite is ever
consumed, regardless of iteration order — is refuted by
`claim_C3_counterexample`.) -/
theorem claim_C3_maintenance_visibility (o : RoundOracle) (r : Int)
    (evict : Nat → Peer → Peer × List Nat)
    (hev : ∀ pid p, (evict pid p).1.id = p.id)
    (hevpend : ∀ pid p,
      (evict pid p).1.pending_invites = p.pending_invites)
    (net : List Peer) (hnd : (net.map (·.id)).Nodup) :
    ((phase3 o r evict net).2.map (·.1) = net.map (·.id)) ∧
    (∀ i q consumed sent,
      (phase3 o r evict net).2.get? i = some (q, consumed, sent) →
      ∃ p, findPeer net q = some p ∧
        consumed = p.pending_invites ++
          (((phase3 o r evict net).2.take i).map (fun e =>
            List.replicate (e.2.2.count q)
              (⟨e.1, r⟩ : Invite))).flatten) ∧
    (∀ i q consumed sent,
      (phase3 o r evict net).2.get? i = some (q, consumed, sent) →
      ∃ p2, findPeer (phase3 o r evict net).1 q = some p2 ∧
        p2.pending_invites =
          (((phase3 o r evict net).2.drop i).map (fun e =>
            List.replicate (e.2.2.count q)
              (⟨e.1, r⟩ : Invite))).flatten) := by
  have hmemAll : ∀ x ∈ net.map (·.id), memNet net x = true := by
    intro x hx
    obtain ⟨p, hp, rfl⟩ := List.mem_map.mp hx
    simp only [memNet, List.any_eq_true]
    exact ⟨p, hp, by simp⟩
  exact phase3_go_exact o r evict hev hevpend (net.map (·.id)) net hnd
    hmemAll

/-- Witness for the amended C3 at the concrete three-peer scenario: the
turn order equals the registry order, and peer 2's consumed list is its
(empty) phase-start inbox plus exactly the one maintenance invite that the
strictly earlier turn of peer 1 addressed to it. -/
theorem claim_C3_maintenance_visibility_witness :
    ((phase3 trivOracle 0 (fixed_evict trivOracle) c3net).2.map (·.1) =
      c3net.map (·.id)) ∧
    (∃ p, findPeer c3net 2 = some p ∧
      [({ sender_id := 1, round_sent := 0 } : Invite)] =
        p.pending_invites ++
        (((phase3 trivOracle 0 (fixed_evict trivOracle) c3net).2.take
          1).map (fun e =>
          List.replicate (e.2.2.count 2)
            (⟨e.1, (0 : Int)⟩ : Invite))).flatten) :=
  ⟨(claim_C3_maintenance_visibility trivOracle 0 (fixed_evict trivOracle)
      (fixed_evict_id trivOracle) (fixed_evict_pending trivOracle) c3net
      (by decide)).1,
   (claim_C3_maintenance_visibility trivOracle 0 (fixed_evict trivOracle)
      (fixed_evict_id trivOracle) (fixed_evict_pending trivOracle) c3net
      (by decide)).2.1 1 2 [{ sender_id := 1, round_sent := 0 }] []
      (by decide)⟩

/-- Counterexample to C3 as stated: in the three-peer scenario, peer 2's
inbox is empty when phase 3 starts, yet its `process_invites` call of the
same round consumes the maintenance invite that peer 1's phase-3 step of
round 0 placed there — same-round consumption does depend on iteration
order. -/
theorem claim_C3_counterexample :
    c3peerB.pending_invites = [] ∧
    findPeer c3net 2 = some c3peerB ∧
    (2, [({ sender_id := 1, round_sent := 0 } : Invite)], ([] : List Nat)) ∈
      (phase3 trivOracle 0 (fixed_evict trivOracle) c3net).2 :=
  ⟨rfl, by decide, by decide⟩

/-! ### Claim C7: maintenance invites are sent only with two Connected -/

/-- **C7 (amended).** In every phase-3 step, a peer whose Connected set
(after draining its inbox) has at least two members sends maintenance
invites to exactly the two sampled Connected relationships; a peer with
fewer than two Connected relationships sends **none** (in particular a peer
with exactly one Connected relationship does not invite it). -/
theorem claim_C7_maintenance_two_or_none (o : RoundOracle) (r : Int)
    (evict : Nat → Peer → Peer × List Nat) (net : List Peer) (pid : Nat)
    (peer : Peer) (hfp : findPeer net pid = some peer) :
    ((peer.process_invites r).1.get_connected_peers.length ≥ 2 →
      (phase3_step o r evict net pid).2.2 =
        o.maint_sample pid (peer.process_invites r).1.get_connected_peers) ∧
    ((peer.process_invites r).1.get_connected_peers.length < 2 →
      (phase3_step o r evict net pid).2.2 = []) ∧
    (validSample (peer.process_invites r).1.get_connected_peers 2
        (o.maint_sample pid (peer.process_invites r).1.get_connected_peers) →
      (peer.process_invites r).1.get_connected_peers.length ≥ 2 →
      (phase3_step o r evict net pid).2.2.length = 2 ∧
      ∀ t ∈ (phase3_step o r evict net pid).2.2,
        t ∈ (peer.process_invites r).1.get_connected_peers) := by
  have hsel : (phase3_step o r evict net pid).2.2 =
      if (peer.process_invites r).1.get_connected_peers.length ≥ 2
      then o.maint_sample pid (peer.process_invites r).1.get_connected_peers
      else [] := by
    unfold phase3_step
    rw [hfp]
  refine ⟨?_, ?_, ?_⟩
  · intro h2
    rw [hsel, if_pos h2]
  · intro h2
    rw [hsel, if_neg (by omega)]
  · intro hvalid h2
    obtain ⟨hlen, hsp⟩ := hvalid
    rw [hsel, if_pos h2]
    exact ⟨hlen, fun t ht => hsp.subset ht⟩

/-- Witness for the amended C7: peer 1 of the three-peer scenario has two
Connected relationships and sends exactly two maintenance invites, both to
Connected peers. -/
theorem claim_C7_maintenance_two_or_none_witness :
    (phase3_step trivOracle 0 (fixed_evict trivOracle) c3net 1).2.2.length =
      2 ∧
    ∀ t ∈ (phase3_step trivOracle 0 (fixed_evict trivOracle) c3net 1).2.2,
      t ∈ (c3peerA.process_invites 0).1.get_connected_peers :=
  (claim_C7_maintenance_two_or_none trivOracle 0 (fixed_evict trivOracle)
    c3net 1 c3peerA (by decide)).2.2
    ⟨by decide, by decide⟩ (by decide)

/-- Counterexample to C7 as stated: peer 1 of the two-peer demo registry has
exactly one Connected relationship (peer 2), yet its phase-3 step selects no
maintenance target, and after the whole phase 3 no invite has been delivered
to — or consumed by — anyone. -/
theorem claim_C7_counterexample :
    demoPeerA.get_connected_peers = [2] ∧
    (phase3_step trivOracle 0 (fixed_evict trivOracle) demoNet 1).2.2 =
      [] ∧
    ((phase3 trivOracle 0 (fixed_evict trivOracle) demoNet).1.map
      (·.pending_invites)) = [[], []] ∧
    (phase3 trivOracle 0 (fixed_evict trivOracle) demoNet).2 =
      [(1, [], []), (2, [], [])] := by
  refine ⟨by decide, by decide, by decide, by decide⟩

/-! ### Claim C10: peer id 0 is undiscoverable -/

/-- `minByKey` returns an element of its input list. -/
theorem minByKey_mem_aux (f : Nat → Nat) :
    ∀ (xs : List Nat) (acc : Option Nat) (v : Nat),
      xs.foldl (fun acc x =>
        match acc with
        | none => some x
        | some b => if f x < f b then some x else some b) acc = some v →
      v ∈ xs ∨ acc = some v := by
  intro xs
  induction xs with
  | nil => intro acc v h; exact Or.inr (by simpa using h)
  | cons x t ih =>
    intro acc v h
    rw [List.foldl_cons] at h
    rcases ih _ v h with hm | hacc
    · exact Or.inl (List.mem_cons_of_mem _ hm)
    · cases acc with
      | none =>
        obtain rfl : x = v := by simpa using hacc
        exact Or.inl (List.mem_cons_self _ _)
      | some b =>
        have hacc' : (if f x < f b then some x else some b) = some v := hacc
        by_cases hlt : f x < f b
        · rw [if_pos hlt] at hacc'
          obtain rfl : x = v := by simpa using hacc'
          exact Or.inl (List.mem_cons_self _ _)
        · rw [if_neg hlt] at hacc'
          exact Or.inr hacc'

theorem minByKey_mem {xs : List Nat} {f : Nat → Nat} {v : Nat}
    (h : minByKey xs f = some v) : v ∈ xs := by
  rcases minByKey_mem_aux f xs none v h with hm | hacc
  · exact hm
  · simp at hacc

/-- **C10.** `simulate_mapping_request` never yields peer id 0: a closest
known peer with id 0 is omitted from the starting points, any walk whose
terminal node is 0 is dropped from the candidate responses, and a discovery
outcome of 0 leaves the requesting peer's state untouched and emits no
invite in phase 1 — so peer 0 can never be discovered. -/
theorem claim_C10_peer_zero_undiscoverable
    (net : List Peer) (peer : Peer) (target : Nat)
    (sample : List Nat → Nat → List Nat)
    (hs : ∀ pool k, ∀ x ∈ sample pool k, x ∈ pool) :
    (∀ v, simulate_mapping_request net peer target sample = some v →
      v ≠ 0) ∧
    (peer.find_closest_peer_to_target target = some 0 →
      0 ∉ starting_points net peer target sample) ∧
    ((0 : Nat) ∉ ((starting_points net peer target sample).map
      (fun s => recursive_search_with_hop_limit net s target 10)).filter
        (fun r => r ≠ 0)) ∧
    (∀ (r : Int) (acc : List Peer × List (Nat × Nat)) (pid : Nat)
        (q : Peer), phase1_react r acc pid q (some 0) = acc) := by
  refine ⟨?_, ?_, ?_, ?_⟩
  · intro v hv
    unfold simulate_mapping_request at hv
    by_cases h1 : starting_points net peer target sample = []
    · rw [if_pos h1] at hv; exact absurd hv (by simp)
    · rw [if_neg h1] at hv
      dsimp only at hv
      by_cases h2 : ((starting_points net peer target sample).map
          (fun s => recursive_search_with_hop_limit net s target 10)).filter
            (fun r => r ≠ 0) = []
      · rw [if_pos h2] at hv; exact absurd hv (by simp)
      · rw [if_neg h2] at hv
        have hmem := minByKey_mem hv
        have := List.of_mem_filter hmem
        simpa using this
  · intro h0 hmem
    unfold starting_points at hmem
    rw [h0] at hmem
    simp only [ne_eq, not_true_eq_false, false_and, if_false,
      List.nil_append] at hmem
    by_cases hnum : min 2 ((peer.get_all_known_peers.filter
        (fun pid => some 0 ≠ some pid ∧ memNet net pid)).length) > 0
    · rw [if_pos hnum] at hmem
      have h0mem := hs _ _ 0 hmem
      have := List.of_mem_filter h0mem
      simp at this
    · rw [if_neg hnum] at hmem
      simp at hmem
  · intro hmem
    have := List.of_mem_filter hmem
    simp at this
  · intro r acc pid q
    simp [phase1_react]

/-! ### Counting Connected records across evictions -/

theorem connOf_peer (p : Peer) : p.get_connected_peers = connOf p.known_peers
  := rfl

theorem connOf_deleteKey (kp : List (Nat × PeerInfo)) (k : Nat) :
    connOf (deleteKey kp k) = (connOf kp).filter (fun x => x != k) := by
  unfold connOf deleteKey
  induction kp with
  | nil => rfl
  | cons e t ih =>
    obtain ⟨k1, v⟩ := e
    by_cases hk : k1 = k
    · subst hk
      by_cases hst : v.state = PeerState.connected <;> simp [hst, ih]
    · by_cases hst : v.state = PeerState.connected <;> simp [hst, hk, ih]

theorem connOf_foldl_deleteKey (R : List Nat) :
    ∀ kp, connOf (R.foldl (fun kp pid => deleteKey kp pid) kp) =
      (connOf kp).filter (fun x => !(decide (x ∈ R))) := by
  induction R with
  | nil => intro kp; simp
  | cons r rs ih =>
    intro kp
    rw [List.foldl_cons, ih, connOf_deleteKey, List.filter_filter]
    apply List.filter_congr
    intro x _
    by_cases hr : x = r <;> by_cases hrs : x ∈ rs <;> simp [hr, hrs]

theorem filter_not_mem_length {C R : List Nat} (hC : C.Nodup) (hR : R.Nodup)
    (hsub : ∀ x ∈ R, x ∈ C) :
    (C.filter (fun x => !(decide (x ∈ R)))).length = C.length - R.length := by
  have hperm := List.filter_append_perm (fun x => decide (x ∈ R)) C
  have hlen : (C.filter (fun x => decide (x ∈ R))).length +
      (C.filter (fun x => !(decide (x ∈ R)))).length = C.length := by
    have := hperm.length_eq
    simpa [List.length_append] using this
  have hpermR : (C.filter (fun x => decide (x ∈ R))).Perm R := by
    rw [List.perm_ext_iff_of_nodup (hC.filter _) hR]
    intro a
    simp only [List.mem_filter, decide_eq_true_eq]
    exact ⟨fun h => h.2, fun h => ⟨hsub a h, h⟩⟩
  have hRlen := hpermR.length_eq
  omega

theorem connOf_sublist_keys (kp : List (Nat × PeerInfo)) :
    (connOf kp).Sublist (kp.map Prod.fst) := by
  induction kp with
  | nil => exact List.Sublist.refl _
  | cons e t ih =>
    by_cases hst : e.2.state = PeerState.connected
    · simpa [connOf, hst] using List.Sublist.cons₂ e.1 ih
    · simpa [connOf, hst] using List.Sublist.cons e.1 ih

/-- Count of Connected records after deleting a duplicate-free set of
Connected keys. -/
theorem count_after_delete (p : Peer) (R : List Nat)
    (hk : (p.known_peers.map Prod.fst).Nodup) (hRn : R.Nodup)
    (hRs : ∀ x ∈ R, x ∈ p.get_connected_peers) :
    (connOf (R.foldl (fun kp pid => deleteKey kp pid) p.known_peers)).length
      = p.get_connected_peers.length - R.length := by
  rw [connOf_foldl_deleteKey]
  rw [connOf_peer] at hRs ⊢
  exact filter_not_mem_length
    ((connOf_sublist_keys p.known_peers).nodup hk) hRn hRs

theorem lookupInfo_map_update_none {α : Type} (kp : List (Nat × α))
    (pid : Nat) (f : Nat × α → α) (h : lookupInfo kp pid = none) :
    lookupInfo (kp.map (fun e => if e.1 == pid then (e.1, f e) else e))
      pid = none := by
  simp only [beq_iff_eq]
  induction kp with
  | nil => rfl
  | cons e t ih =>
    obtain ⟨k, v⟩ := e
    rw [lookupInfo_cons] at h
    by_cases hk : k = pid
    · rw [if_pos hk] at h; exact absurd h (by simp)
    · rw [if_neg hk] at h
      simp only [List.map_cons, if_neg hk]
      rw [lookupInfo_cons, if_neg hk]
      exact ih h

/-- Lookup after the distribution fold: each present bucket collects, in
order, the peers assigned to it. -/
theorem fold_assign_lookup (assign : Nat → Option Nat) (i : Nat) :
    ∀ (xs : List Nat) (b : List (Nat × List Nat)),
      lookupInfo (xs.foldl (fun b cp =>
        match assign cp with
        | some j => appendToKey b j cp
        | none => b) b) i =
      (lookupInfo b i).map
        (fun l => l ++ xs.filter (fun cp => assign cp = some i)) := by
  intro xs
  induction xs with
  | nil =>
    intro b
    rw [List.foldl_nil]
    cases lookupInfo b i <;> simp
  | cons x t ih =>
    intro b
    rw [List.foldl_cons]
    cases hax : assign x with
    | none =>
      rw [ih]
      cases lookupInfo b i <;> simp [hax]
    | some j =>
      by_cases hij : j = i
      · subst hij
        rw [ih]
        cases hb : lookupInfo b j with
        | none =>
          rw [show lookupInfo (appendToKey b j x) j = none from
            lookupInfo_map_update_none b j _ hb]
          simp
        | some l =>
          rw [show lookupInfo (appendToKey b j x) j = some (l ++ [x]) from
            lookupInfo_map_update_self b j _ l hb]
          simp [hax, List.append_assoc]
      · rw [ih]
        rw [show lookupInfo (appendToKey b j x) i = lookupInfo b i from
          lookupInfo_map_update b j i _ (fun hh => hij hh.symm)]
        have : ¬ assign x = some i := by
          rw [hax]; exact fun hh => hij (by simpa using hh)
        cases lookupInfo b i <;> simp [this]

theorem lookupInfo_range_init {α : Type} (f : Nat → α) :
    ∀ (n i : Nat),
      lookupInfo ((List.range n).map (fun j => (j, f j))) i =
        if i < n then some (f i) else none := by
  intro n
  induction n with
  | zero => intro i; simp [lookupInfo_nil]
  | succ n ih =>
    intro i
    rw [List.range_succ, List.map_append]
    simp only [List.map_cons, List.map_nil]
    by_cases hi : i = n
    · subst hi
      rw [lookupInfo_append_self _ _ _ (by simp [hasKey, ih])]
      simp
    · rw [lookupInfo_append_other _ _ _ _ hi, ih]
      rcases Nat.lt_trichotomy i n with h | h | h
      · rw [if_pos h, if_pos (by omega)]
      · exact absurd h hi
      · rw [if_neg (by omega), if_neg (by omega)]

/-- The contents of bucket `i` of a distribution: the Connected peers whose
assignment is `i` (for `i` inside the key range). -/
theorem distribution_of_lookup (assign : Nat → Option Nat) (n : Nat)
    (conn : List Nat) (i : Nat) :
    (lookupInfo (distribution_of assign n conn) i).getD [] =
      if i < n then conn.filter (fun cp => assign cp = some i) else [] := by
  unfold distribution_of
  rw [fold_assign_lookup, lookupInfo_range_init]
  by_cases hi : i < n <;> simp [hi]

theorem foldl_append_flatten {β : Type} (g : β → List Nat) :
    ∀ (l : List β) (acc : List Nat),
      l.foldl (fun acc x => acc ++ g x) acc = acc ++ (l.map g).flatten := by
  intro l
  induction l with
  | nil => intro acc; simp
  | cons x t ih =>
    intro acc
    rw [List.foldl_cons, ih, List.map_cons, List.flatten_cons,
      List.append_assoc]

/-- Inserting an element permutes it onto the front of the list. -/
theorem insertLe_perm {α : Type} (le : α → α → Bool) (x : α)
    (l : List α) : (insertLe le x l).Perm (x :: l) := by
  induction l with
  | nil => rfl
  | cons y ys ih =>
    unfold insertLe
    split
    · rfl
    · exact (List.Perm.cons y ih).trans (List.Perm.swap x y ys)

/-- Insertion sort permutes its input. -/
theorem sortLe_perm {α : Type} (le : α → α → Bool) (l : List α) :
    (sortLe le l).Perm l := by
  induction l with
  | nil => rfl
  | cons x xs ih =>
    unfold sortLe
    exact (insertLe_perm le x (sortLe le xs)).trans (ih.cons x)

/-- Membership is preserved by insertion sort. -/
theorem mem_sortLe {α : Type} {le : α → α → Bool} {x : α} {l : List α} :
    x ∈ sortLe le l ↔ x ∈ l :=
  (sortLe_perm le l).mem_iff

/-- Inserting into a sorted list yields a sorted list, for a transitive
total comparison. -/
theorem sorted_insertLe {α : Type} {le : α → α → Bool}
    (htrans : ∀ a b c, le a b = true → le b c = true → le a c = true)
    (htotal : ∀ a b, le a b = true ∨ le b a = true) (x : α) {l : List α}
    (h : l.Pairwise (fun a b => le a b = true)) :
    (insertLe le x l).Pairwise (fun a b => le a b = true) := by
  induction l with
  | nil => simp [insertLe]
  | cons y ys ih =>
    rw [List.pairwise_cons] at h
    obtain ⟨hy, hys⟩ := h
    unfold insertLe
    split
    case isTrue hxy =>
      refine List.Pairwise.cons ?_ (List.Pairwise.cons hy hys)
      intro z hz
      rcases List.mem_cons.mp hz with rfl | hz
      · exact hxy
      · exact htrans x y z hxy (hy z hz)
    case isFalse hxy =>
      refine List.Pairwise.cons ?_ (ih hys)
      intro z hz
      have hz' := (insertLe_perm le x ys).mem_iff.mp hz
      rcases List.mem_cons.mp hz' with hzx | hz'
      · rw [hzx]
        rcases htotal y x with h | h
        · exact h
        · exact absurd h hxy
      · exact hy z hz'

/-- Insertion sort sorts, for a transitive total comparison. -/
theorem sorted_sortLe {α : Type} {le : α → α → Bool}
    (htrans : ∀ a b c, le a b = true → le b c = true → le a c = true)
    (htotal : ∀ a b, le a b = true ∨ le b a = true) (l : List α) :
    (sortLe le l).Pairwise (fun a b => le a b = true) := by
  induction l with
  | nil => exact List.Pairwise.nil
  | cons x xs ih =>
    unfold sortLe
    exact sorted_insertLe htrans htotal x ih

/-- The per-bucket pass, written as a flat list of per-bucket slices. -/
theorem bucket_phase_removals_eq (key : Nat → Nat)
    (ts : List (Nat × Nat)) (dist : List (Nat × List Nat)) :
    bucket_phase_removals key ts dist =
      (ts.map (fun bt =>
        let current_peers := (lookupInfo dist bt.1).getD []
        if current_peers.length > bt.2 then
          (sortLe (fun a b : Nat => key a ≤ key b)
              current_peers).reverse.take
            (min (current_peers.length - bt.2)
              (sortLe (fun a b : Nat => key a ≤ key b)
                current_peers).length)
        else [])).flatten := by
  unfold bucket_phase_removals
  rw [List.foldl_ext _ (fun acc bt =>
    acc ++ (let current_peers := (lookupInfo dist bt.1).getD []
      if current_peers.length > bt.2 then
        (sortLe (fun a b : Nat => key a ≤ key b)
            current_peers).reverse.take
          (min (current_peers.length - bt.2)
            (sortLe (fun a b : Nat => key a ≤ key b)
              current_peers).length)
      else []))]
  · rw [foldl_append_flatten]
    simp
  · intro acc bt _
    dsimp only
    split <;> simp

/-- The per-bucket pass evicts a duplicate-free subset of the Connected
set. -/
theorem bucket_phase_sub_nodup (key : Nat → Nat)
    (ts : List (Nat × Nat)) (hts : (ts.map Prod.fst).Nodup)
    (assign : Nat → Option Nat) (n : Nat) (conn : List Nat)
    (hconn : conn.Nodup) :
    (bucket_phase_removals key ts (distribution_of assign n conn)).Nodup ∧
    ∀ x ∈ bucket_phase_removals key ts (distribution_of assign n conn),
      x ∈ conn := by
  rw [bucket_phase_removals_eq]
  have hB : ∀ i, (lookupInfo (distribution_of assign n conn) i).getD [] =
      if i < n then conn.filter (fun cp => assign cp = some i) else [] :=
    distribution_of_lookup assign n conn
  have hslice : ∀ bt : Nat × Nat,
      (∀ x ∈ (let current_peers :=
          (lookupInfo (distribution_of assign n conn) bt.1).getD []
        if current_peers.length > bt.2 then
          (sortLe (fun a b : Nat => key a ≤ key b)
              current_peers).reverse.take
            (min (current_peers.length - bt.2)
              (sortLe (fun a b : Nat => key a ≤ key b)
                current_peers).length)
        else []),
        x ∈ (lookupInfo (distribution_of assign n conn) bt.1).getD []) := by
    intro bt x hx
    dsimp only at hx
    split at hx
    · have := List.take_subset _ _ hx
      rw [List.mem_reverse, mem_sortLe] at this
      exact this
    · simp at hx
  have hBn : ∀ i, ((lookupInfo (distribution_of assign n conn) i
      ).getD []).Nodup := by
    intro i
    rw [hB]
    split
    · exact hconn.filter _
    · exact List.nodup_nil
  have hBsub : ∀ i, ∀ x ∈ (lookupInfo (distribution_of assign n conn) i
      ).getD [], x ∈ conn := by
    intro i x hx
    rw [hB] at hx
    split at hx
    · exact List.mem_of_mem_filter hx
    · simp at hx
  have hBassign : ∀ i, ∀ x ∈ (lookupInfo (distribution_of assign n conn) i
      ).getD [], assign x = some i := by
    intro i x hx
    rw [hB] at hx
    split at hx
    · simpa using List.of_mem_filter hx
    · simp at hx
  constructor
  · rw [List.nodup_flatten]
    constructor
    · intro l hl
      obtain ⟨bt, _, rfl⟩ := List.mem_map.mp hl
      dsimp only
      split
      · exact List.Sublist.nodup (List.take_sublist _ _)
          (List.nodup_reverse.mpr
            (((sortLe_perm _ _).symm.nodup (hBn bt.1))))
      · exact List.nodup_nil
    · rw [List.pairwise_map]
      have hpw : ts.Pairwise (fun a b => a.1 ≠ b.1) := by
        have h2 : (ts.map Prod.fst).Pairwise (· ≠ ·) := hts
        rw [List.pairwise_map] at h2
        exact h2
      refine hpw.imp ?_
      intro a b hab x hxa hxb
      have h1 := hBassign a.1 x (hslice a x hxa)
      have h2 := hBassign b.1 x (hslice b x hxb)
      rw [h1] at h2
      exact hab (by simpa using h2)
  · intro x hx
    rw [List.mem_flatten] at hx
    obtain ⟨l, hl, hxl⟩ := hx
    obtain ⟨bt, _, rfl⟩ := List.mem_map.mp hl
    exact hBsub bt.1 x (hslice bt x hxl)

/-- A valid sample from a duplicate-free pool is duplicate-free. -/
theorem validSample_nodup {pool k chosen} (h : validSample pool k chosen)
    (hp : pool.Nodup) : chosen.Nodup := by
  obtain ⟨m, hperm, hsub⟩ := h.2
  exact hperm.nodup (hsub.nodup hp)

/-- Keys of an index-tagged range list. -/
theorem map_fst_range_pairs {α : Type} (f : Nat → α) (n : Nat) :
    ((List.range n).map (fun i => (i, f i))).map Prod.fst = List.range n := by
  rw [List.map_map]
  exact List.map_id _ ▸ rfl

/-- The keys of the distance-bucketed targets are the bucket indices. -/
theorem calc_targets_keys_nodup (p : Peer) (all_peers : List Nat) :
    ((calculate_optimal_distribution p all_peers).1.map Prod.fst).Nodup := by
  unfold calculate_optimal_distribution
  dsimp only
  rw [map_fst_range_pairs]
  exact List.nodup_range _

/-- The exact-excess property of `optimize_connections`: on a duplicate-free
Connected set strictly over the degree bound with at least two candidate
peers, the scheduled removals are a duplicate-free subset of the Connected
set of size exactly the excess. -/
theorem optimize_connections_spec (p : Peer) (all_peers : List Nat)
    (sample : List Nat → Nat → List Nat)
    (hall : 1 < all_peers.length)
    (hconn : p.get_connected_peers.Nodup)
    (hN : p.max_connections < p.get_connected_peers.length)
    (hs : ∀ pool k, k ≤ pool.length → validSample pool k (sample pool k)) :
    (optimize_connections p all_peers sample).Nodup ∧
    (∀ x ∈ optimize_connections p all_peers sample,
      x ∈ p.get_connected_peers) ∧
    (optimize_connections p all_peers sample).length =
      p.get_connected_peers.length - p.max_connections := by
  unfold optimize_connections
  rw [if_neg (by omega), if_neg (by omega)]
  dsimp only
  obtain ⟨hbknd, hbksub⟩ := bucket_phase_sub_nodup
    (fun cp => xor_distance p.id cp)
    (calculate_optimal_distribution p all_peers).1
    (calc_targets_keys_nodup p all_peers)
    (rangeAssign p (calculate_optimal_distribution p all_peers).2.2)
    (calculate_optimal_distribution p all_peers).1.length
    p.get_connected_peers hconn
  set conn := p.get_connected_peers with hc
  set bk := bucket_phase_removals (fun cp => xor_distance p.id cp)
    (calculate_optimal_distribution p all_peers).1
    (distribution_of
      (rangeAssign p (calculate_optimal_distribution p all_peers).2.2)
      (calculate_optimal_distribution p all_peers).1.length conn) with hbk
  set excess := conn.length - p.max_connections with he
  by_cases hlt : bk.length < excess
  · rw [if_pos hlt]
    set remaining := conn.filter (fun q => decide (q ∉ bk)) with hrem
    have hremlen : remaining.length = conn.length - bk.length := by
      rw [hrem]
      have : conn.filter (fun q => decide (q ∉ bk)) =
          conn.filter (fun x => !(decide (x ∈ bk))) := by
        simp only [decide_not]
      rw [this]
      exact filter_not_mem_length hconn hbknd hbksub
    have hmin : min (excess - bk.length) remaining.length =
        excess - bk.length := by
      rw [hremlen]; omega
    have hv := hs remaining (min (excess - bk.length) remaining.length)
      (min_le_right _ _)
    rw [hmin] at hv
    obtain ⟨hvlen, hvsp⟩ := hv
    have hfilln : (sample remaining (excess - bk.length)).Nodup :=
      validSample_nodup ⟨hvlen, hvsp⟩ (hconn.filter _)
    have hfillsub : ∀ x ∈ sample remaining (excess - bk.length),
        x ∈ remaining := fun x hx => hvsp.subset hx
    have hdisj : ∀ x ∈ bk, x ∉ sample remaining (excess - bk.length) := by
      intro x hxbk hxfill
      have := hfillsub x hxfill
      rw [hrem] at this
      have := List.of_mem_filter this
      simp at this
      exact this hxbk
    have hlen2 : (bk ++ sample remaining (excess - bk.length)).length =
        excess := by
      rw [List.length_append, hvlen]; omega
    have htake : (bk ++ sample remaining (excess - bk.length)).take excess =
        bk ++ sample remaining (excess - bk.length) :=
      List.take_of_length_le (by omega)
    rw [hmin, htake]
    refine ⟨?_, ?_, hlen2⟩
    · rw [List.nodup_append]
      exact ⟨hbknd, hfilln, hdisj⟩
    · intro x hx
      rcases List.mem_append.mp hx with hx | hx
      · exact hbksub x hx
      · exact List.mem_of_mem_filter (hfillsub x hx)
  · rw [if_neg hlt]
    refine ⟨?_, ?_, ?_⟩
    · exact (List.take_sublist _ _).nodup hbknd
    · intro x hx
      exact hbksub x (List.take_subset _ _ hx)
    · rw [List.length_take]
      omega

/-- `DistanceOptimizedPeer.remove_excess_connections` leaves at most
`soft_max_connections` Connected records (and exactly `max_connections` when
it fires). -/
theorem distopt_remove_excess_le (p : Peer) (all_peers : List Nat)
    (sample : List Nat → Nat → List Nat)
    (hkeys : (p.known_peers.map Prod.fst).Nodup)
    (hall : 1 < all_peers.length)
    (hs : ∀ pool k, k ≤ pool.length → validSample pool k (sample pool k)) :
    (DistanceOptimizedPeer.remove_excess_connections p all_peers
      sample).1.get_connected_peers.length ≤
      soft_max_connections p.max_connections := by
  have hconn : p.get_connected_peers.Nodup := by
    rw [connOf_peer]
    exact (connOf_sublist_keys p.known_peers).nodup hkeys
  have hsoft : p.max_connections + 2 ≤ soft_max_connections
      p.max_connections := by
    unfold soft_max_connections connection_slack
    omega
  unfold DistanceOptimizedPeer.remove_excess_connections
  dsimp only
  by_cases hn : p.get_connected_peers.length ≤
      soft_max_connections p.max_connections
  · rw [if_pos hn]
    exact hn
  · rw [if_neg hn]
    have hN : p.max_connections < p.get_connected_peers.length := by omega
    obtain ⟨hnd, hsub, hlen⟩ := optimize_connections_spec p all_peers sample
      hall hconn hN hs
    have hcount := count_after_delete p
      (optimize_connections p all_peers sample) hkeys hnd hsub
    show (connOf ((optimize_connections p all_peers sample).foldl
      (fun kp pid => deleteKey kp pid) p.known_peers)).length ≤
      soft_max_connections p.max_connections
    rw [hcount, hlen]
    omega

/-- `appendToKey` leaves the key sequence unchanged. -/
theorem appendToKey_keys {α : Type} (b : List (Nat × List α)) (k : Nat)
    (v : α) : (appendToKey b k v).map Prod.fst = b.map Prod.fst := by
  unfold appendToKey
  rw [List.map_map]
  refine List.map_congr_left (fun e _ => ?_)
  simp only [Function.comp_apply]
  split <;> rfl

/-- The distribution fold leaves the key sequence unchanged. -/
theorem fold_assign_keys (assign : Nat → Option Nat) :
    ∀ (xs : List Nat) (b : List (Nat × List Nat)),
      ((xs.foldl (fun b cp =>
        match assign cp with
        | some j => appendToKey b j cp
        | none => b) b)).map Prod.fst = b.map Prod.fst := by
  intro xs
  induction xs with
  | nil => intro b; rfl
  | cons x t ih =>
    intro x2
    rw [List.foldl_cons]
    cases hax : assign x with
    | none => exact ih x2
    | some j => rw [ih, appendToKey_keys]

/-- Keys of an element-tagged list. -/
theorem map_fst_tag {α : Type} (l : List Nat) (g : Nat → α) :
    ((l.map (fun b => (b, g b))).map Prod.fst) = l := by
  rw [List.map_map]
  have : ∀ a ∈ l, (Prod.fst ∘ fun b => (b, g b)) a = id a :=
    fun a _ => rfl
  rw [List.map_congr_left this, List.map_id]

/-- Re-tagging values of an association list keeps its keys. -/
theorem map_fst_retag {α β : Type} (l : List (Nat × α)) (g : Nat × α → β) :
    ((l.map (fun e => (e.1, g e))).map Prod.fst) = l.map Prod.fst := by
  rw [List.map_map]
  exact List.map_congr_left (fun e _ => rfl)

/-- The target keys produced by `calculate_routing_distribution` are
duplicate-free. -/
theorem calc_routing_keys_nodup (p : Peer) (all_peers : List Nat)
    {final : List (Nat × Nat)} {buckets : List (Nat × List Nat)}
    (h : calculate_routing_distribution p all_peers = some (final, buckets)) :
    (final.map Prod.fst).Nodup := by
  unfold calculate_routing_distribution at h
  by_cases h1 : all_peers = []
  · rw [if_pos h1] at h; exact absurd h (by simp)
  · rw [if_neg h1] at h
    try simp only [] at h
    by_cases h2 : all_peers.filter (fun pid => pid ≠ p.id) = []
    · rw [if_pos h2] at h; exact absurd h (by simp)
    · rw [if_neg h2] at h
      try simp only [] at h
      set buckets1 := (all_peers.filter (fun pid => pid ≠ p.id)).foldl
        (fun b peer_id =>
          let distance := xor_distance p.id peer_id
          if distance = 0 then b
          else appendToKey b (min (count_leading_zeros distance) 31) peer_id)
        ((List.range 32).map (fun i => (i, ([] : List Nat)))) with hb1
      have hne : ((buckets1.filter (fun e => e.2 ≠ [])).map
          Prod.fst).Nodup := by
        have hstep : buckets1 = (all_peers.filter (fun pid => pid ≠ p.id)
            ).foldl
            (fun b peer_id =>
              match (fun cp =>
                if xor_distance p.id cp = 0 then none
                else some (min (count_leading_zeros (xor_distance p.id cp))
                  31)) peer_id with
              | some j => appendToKey b j peer_id
              | none => b)
            ((List.range 32).map (fun i => (i, ([] : List Nat)))) := by
          rw [hb1]
          exact List.foldl_ext _ _ _ (by
            intro b x _
            dsimp only
            split <;> simp)
        have hkeys : buckets1.map Prod.fst = List.range 32 := by
          rw [hstep, fold_assign_keys, map_fst_range_pairs]
        have hsub : ((buckets1.filter (fun e => e.2 ≠ [])).map
            Prod.fst).Sublist (buckets1.map Prod.fst) :=
          (List.filter_sublist _).map _
        rw [hkeys] at hsub
        exact hsub.nodup (List.nodup_range 32)
      by_cases h3 : (buckets1.filter (fun e => e.2 ≠ [])).map Prod.fst = []
      · rw [if_pos h3] at h; exact absurd h (by simp)
      · rw [if_neg h3] at h
        try simp only [] at h
        by_cases h4 : ((((buckets1.filter (fun e => e.2 ≠ [])).map
            Prod.fst).map (fun bucket_id =>
              (bucket_id,
               if bucket_id ≥ 24 then 4
               else if bucket_id ≥ 16 then 3
               else if bucket_id ≥ 8 then 2
               else 1))).map (·.2)).sum = 0
        · rw [if_pos h4] at h; exact absurd h (by simp)
        · rw [if_neg h4] at h
          try simp only [] at h
          have hfin := congrArg Prod.fst (Option.some.inj h)
          dsimp only at hfin
          rw [← hfin]
          split
          · rw [map_fst_retag, map_fst_retag, map_fst_tag]
            exact hne
          · rw [map_fst_retag, map_fst_tag]
            exact hne

/-- The at-least-excess property of `optimize_connections_improved`: on a
duplicate-free Connected set strictly over the degree bound, the scheduled
removals are a duplicate-free subset of the Connected set covering at least
the excess (the bucket step may over-remove). -/
theorem optimize_improved_spec (p : Peer) (all_peers : List Nat)
    (sample : List Nat → Nat → List Nat)
    (hconn : p.get_connected_peers.Nodup)
    (hN : p.max_connections < p.get_connected_peers.length)
    (hs : ∀ pool k, k ≤ pool.length → validSample pool k (sample pool k)) :
    (optimize_connections_improved p all_peers sample).Nodup ∧
    (∀ x ∈ optimize_connections_improved p all_peers sample,
      x ∈ p.get_connected_peers) ∧
    p.get_connected_peers.length - p.max_connections ≤
      (optimize_connections_improved p all_peers sample).length := by
  unfold optimize_connections_improved
  rw [if_neg (by omega)]
  dsimp only
  have hfallback : ∀ k, k = min (p.get_connected_peers.length -
      p.max_connections) p.get_connected_peers.length →
      (sample p.get_connected_peers k).Nodup ∧
      (∀ x ∈ sample p.get_connected_peers k,
        x ∈ p.get_connected_peers) ∧
      p.get_connected_peers.length - p.max_connections ≤
        (sample p.get_connected_peers k).length := by
    intro k hk
    have hkle : k ≤ p.get_connected_peers.length := by omega
    have hv := hs p.get_connected_peers k hkle
    exact ⟨validSample_nodup hv hconn, fun x hx => hv.2.subset hx,
      by rw [hv.1]; omega⟩
  cases hcalc : calculate_routing_distribution p all_peers with
  | none => exact hfallback _ rfl
  | some pr =>
    obtain ⟨final, buckets⟩ := pr
    dsimp only
    by_cases hfe : final = []
    · rw [if_pos hfe]
      exact hfallback _ rfl
    · rw [if_neg hfe]
      have hkeys := calc_routing_keys_nodup p all_peers hcalc
      obtain ⟨hbknd, hbksub⟩ := bucket_phase_sub_nodup
        (fun cp => xor_distance p.id cp) final hkeys
        (fun cp =>
          if xor_distance p.id cp = 0 then none
          else some (min (count_leading_zeros (xor_distance p.id cp)) 31))
        32 p.get_connected_peers hconn
      set conn := p.get_connected_peers with hc
      set bk := bucket_phase_removals (fun cp => xor_distance p.id cp) final
        (distribution_of
          (fun cp =>
            if xor_distance p.id cp = 0 then none
            else some (min (count_leading_zeros (xor_distance p.id cp)) 31))
          32 conn) with hbk
      set ca := conn.filter (fun q => decide (q ∉ bk)) with hca
      have hcalen : ca.length = conn.length - bk.length := by
        rw [hca]
        have : conn.filter (fun q => decide (q ∉ bk)) =
            conn.filter (fun x => !(decide (x ∈ bk))) := by
          simp only [decide_not]
        rw [this]
        exact filter_not_mem_length hconn hbknd hbksub
      have hbklen : bk.length ≤ conn.length :=
        (List.subperm_of_subset hbknd hbksub).length_le
      by_cases hover : ca.length > p.max_connections
      · rw [if_pos hover]
        have hmin : min (ca.length - p.max_connections) ca.length =
            ca.length - p.max_connections := by omega
        rw [hmin]
        have hv := hs ca (min (ca.length - p.max_connections) ca.length)
          (min_le_right _ _)
        rw [hmin] at hv
        have hfilln := validSample_nodup hv (hconn.filter _)
        have hfillsub : ∀ x ∈ sample ca (ca.length - p.max_connections),
            x ∈ ca := fun x hx => hv.2.subset hx
        refine ⟨?_, ?_, ?_⟩
        · rw [List.nodup_append]
          refine ⟨hbknd, hfilln, ?_⟩
          intro x hxbk hxfill
          have := List.of_mem_filter (hfillsub x hxfill)
          simp at this
          exact this hxbk
        · intro x hx
          rcases List.mem_append.mp hx with hx | hx
          · exact hbksub x hx
          · exact List.mem_of_mem_filter (hfillsub x hx)
        · rw [List.length_append, hv.1]
          omega
      · rw [if_neg hover]
        exact ⟨hbknd, hbksub, by omega⟩

/-- `ImprovedDistanceOptimizedPeer.remove_excess_connections` leaves at most
its soft limit of Connected records. -/
theorem improved_remove_excess_le (p : Peer) (all_peers : List Nat)
    (sample : List Nat → Nat → List Nat)
    (hkeys : (p.known_peers.map Prod.fst).Nodup)
    (hs : ∀ pool k, k ≤ pool.length → validSample pool k (sample pool k)) :
    (ImprovedDistanceOptimizedPeer.remove_excess_connections p all_peers
      sample).1.get_connected_peers.length ≤
      soft_max_connections_improved p.max_connections := by
  have hconn : p.get_connected_peers.Nodup := by
    rw [connOf_peer]
    exact (connOf_sublist_keys p.known_peers).nodup hkeys
  have hsoft : p.max_connections + 2 ≤ soft_max_connections_improved
      p.max_connections := by
    unfold soft_max_connections_improved connection_slack_improved
    omega
  unfold ImprovedDistanceOptimizedPeer.remove_excess_connections
  dsimp only
  by_cases hn : p.get_connected_peers.length ≤
      soft_max_connections_improved p.max_connections
  · rw [if_pos hn]
    exact hn
  · rw [if_neg hn]
    have hN : p.max_connections < p.get_connected_peers.length := by omega
    obtain ⟨hnd, hsub, hlen⟩ := optimize_improved_spec p all_peers sample
      hconn hN hs
    have hcount := count_after_delete p
      (optimize_connections_improved p all_peers sample) hkeys hnd hsub
    show (connOf ((optimize_connections_improved p all_peers sample).foldl
      (fun kp pid => deleteKey kp pid) p.known_peers)).length ≤
      soft_max_connections_improved p.max_connections
    rw [hcount]
    omega

/-- The uniform-random `Peer.remove_excess_connections` enforces the hard
degree bound. -/
theorem base_remove_excess_le (p : Peer)
    (sample : List Nat → Nat → List Nat)
    (hkeys : (p.known_peers.map Prod.fst).Nodup)
    (hs : ∀ pool k, k ≤ pool.length → validSample pool k (sample pool k)) :
    (p.remove_excess_connections sample).1.get_connected_peers.length ≤
      p.max_connections := by
  have hconn : p.get_connected_peers.Nodup := by
    rw [connOf_peer]
    exact (connOf_sublist_keys p.known_peers).nodup hkeys
  unfold Peer.remove_excess_connections
  dsimp only
  by_cases hb : p.get_connected_peers.length ≤ p.max_connections
  · rw [if_pos hb]
    exact hb
  · rw [if_neg hb]
    have hv := hs p.get_connected_peers
      (p.get_connected_peers.length - p.max_connections) (by omega)
    have hnd := validSample_nodup hv hconn
    have hsub : ∀ x ∈ sample p.get_connected_peers
        (p.get_connected_peers.length - p.max_connections),
        x ∈ p.get_connected_peers := fun x hx => hv.2.subset hx
    have hcount := count_after_delete p _ hkeys hnd hsub
    show (connOf ((sample p.get_connected_peers
      (p.get_connected_peers.length - p.max_connections)).foldl
      (fun kp pid => deleteKey kp pid) p.known_peers)).length ≤
      p.max_connections
    rw [hcount, hv.1]
    omega

/-! ### Claim C1: the degree bound at the end of phase 4, by policy -/

/-- The gradient bucket loop schedules nothing when every walked class is
within its budget, whatever the excess. -/
theorem gradientEvictGo_within (budgets : List (Nat × Nat))
    (groups : Nat → List Nat) (sample : List Nat → Nat → List Nat) :
    ∀ (keys : List Nat) (excess : Nat),
      (∀ dc ∈ keys,
        (groups dc).length ≤ (lookupInfo budgets dc).getD 1) →
      gradientEvictGo budgets groups sample keys excess = [] := by
  intro keys
  induction keys with
  | nil => intro excess _; rfl
  | cons dc rest ih =>
    intro excess h
    unfold gradientEvictGo
    by_cases he : excess = 0
    · rw [if_pos he]
    · rw [if_neg he]
      dsimp only
      rw [if_neg (Nat.not_lt.mpr (h dc (List.mem_cons_self dc rest)))]
      exact ih excess (fun x hx => h x (List.mem_cons_of_mem _ hx))

/-- `GradientPeer.remove_excess_connections` evicts nothing — regardless of
the Connected count — when every occupied distance class is within its
budget: the ring-bucketed policy enforces only the per-class budgets. -/
theorem gradient_remove_excess_within (g : GradientPeer)
    (gsample : List Nat → Nat → List Nat)
    (hbud : ∀ dc ∈ g.get_connected_peers.map g.classOf,
      (g.get_connected_peers.filter
        (fun pid => g.classOf pid = dc)).length ≤
        (lookupInfo g.distance_class_budgets dc).getD 1) :
    g.remove_excess_connections gsample = (g, []) := by
  unfold GradientPeer.remove_excess_connections
  dsimp only
  by_cases hle : g.get_connected_peers.length ≤ g.max_connections
  · rw [if_pos hle]
  · rw [if_neg hle]
    have hkeys : ∀ dc ∈ sortLe (fun a b : Nat => b ≤ a)
        ((g.get_connected_peers.map g.classOf).dedup),
        (g.get_connected_peers.filter
          (fun pid => g.classOf pid = dc)).length ≤
          (lookupInfo g.distance_class_budgets dc).getD 1 := by
      intro dc hdc
      exact hbud dc (List.mem_dedup.mp (mem_sortLe.mp hdc))
    have hgo := gradientEvictGo_within g.distance_class_budgets
      (fun dc => g.get_connected_peers.filter
        (fun pid => g.classOf pid = dc))
      gsample
      (sortLe (fun a b : Nat => b ≤ a)
        ((g.get_connected_peers.map g.classOf).dedup))
      (g.get_connected_peers.length - g.max_connections) hkeys
    rw [hgo]
    rfl

/-- **C1 (amended).** After the per-peer eviction step of a round, only the
uniform-random policy guarantees Connected-count ≤ `max_connections`; the
static distance-bucketed and prefix-bucketed variants guarantee only their
soft limits `max_connections + slack` (they do not evict between the hard
and soft limits), and the gradient ring-bucketed variant enforces only its
per-class budgets: whenever every occupied distance class is within its
budget it evicts nothing, leaving the peer — and hence any Connected
count, in particular one above the degree bound — unchanged (see
`claim_C1_counterexample` for a full distance-bucketed round ending above
the degree bound). -/
theorem claim_C1_degree_bound_by_policy (p : Peer) (all_peers : List Nat)
    (sample : List Nat → Nat → List Nat) (g : GradientPeer)
    (gsample : List Nat → Nat → List Nat)
    (hkeys : (p.known_peers.map Prod.fst).Nodup)
    (hall : 1 < all_peers.length)
    (hs : ∀ pool k, k ≤ pool.length → validSample pool k (sample pool k))
    (hbud : ∀ dc ∈ g.get_connected_peers.map g.classOf,
      (g.get_connected_peers.filter
        (fun pid => g.classOf pid = dc)).length ≤
        (lookupInfo g.distance_class_budgets dc).getD 1) :
    (p.remove_excess_connections sample).1.get_connected_peers.length ≤
      p.max_connections ∧
    (DistanceOptimizedPeer.remove_excess_connections p all_peers
      sample).1.get_connected_peers.length ≤
      soft_max_connections p.max_connections ∧
    (ImprovedDistanceOptimizedPeer.remove_excess_connections p all_peers
      sample).1.get_connected_peers.length ≤
      soft_max_connections_improved p.max_connections ∧
    g.remove_excess_connections gsample = (g, []) :=
  ⟨base_remove_excess_le p sample hkeys hs,
   distopt_remove_excess_le p all_peers sample hkeys hall hs,
   improved_remove_excess_le p all_peers sample hkeys hs,
   gradient_remove_excess_within g gsample hbud⟩

/-- Witness for the amended C1 at concrete peers: the gradient peer has 3
Connected relationships against a degree bound of 2, yet evicts nothing
because both its occupied classes are within budget. -/
theorem claim_C1_degree_bound_by_policy_witness :
    (demoPeerA.remove_excess_connections
      (fun pool k => pool.take k)).1.get_connected_peers.length ≤
      demoPeerA.max_connections ∧
    (DistanceOptimizedPeer.remove_excess_connections demoPeerA [1, 2]
      (fun pool k => pool.take k)).1.get_connected_peers.length ≤
      soft_max_connections demoPeerA.max_connections ∧
    (ImprovedDistanceOptimizedPeer.remove_excess_connections demoPeerA
      [1, 2]
      (fun pool k => pool.take k)).1.get_connected_peers.length ≤
      soft_max_connections_improved demoPeerA.max_connections ∧
    c1gpeer.remove_excess_connections (fun pool k => pool.take k) =
      (c1gpeer, []) :=
  claim_C1_degree_bound_by_policy demoPeerA [1, 2]
    (fun pool k => pool.take k) c1gpeer (fun pool k => pool.take k)
    (by decide) (by decide)
    (fun pool k hk => ⟨by rw [List.length_take]; omega,
      (List.take_sublist k pool).subperm⟩)
    (by decide)

/-- Counterexample to C1 as stated: a full `DistanceOptimizedSimulator`
round on four mutually Connected peers with degree bound 2.  The per-peer
eviction step runs in phase 4 of the round, yet peer 1 ends the round with
3 Connected relationships — above its `max_connections` of 2 — because the
bucketed policy only evicts above its soft limit of 4. -/
theorem claim_C1_counterexample :
    (findPeer c1net 1).map (fun p => p.max_connections) = some 2 ∧
    (findPeer (simulate_round_distopt trivOracle 0 c1net) 1).map
      (fun p => p.get_connected_peers.length) = some 3 :=
  ⟨by decide, by decide⟩

/-! ### Claim C6: behavior on degenerate eviction inputs -/

/-- **C6 (amended).** On degenerate bucket inputs the two bucketed variants
diverge: `DistanceOptimizedPeer` with fewer than two candidate peers evicts
**nothing at all** (its uniform-random fallback is reserved for exceptions
in the bucket computation, which the embedded total computation shows cannot
occur), while `ImprovedDistanceOptimizedPeer` falls back to uniform-random
eviction of exactly `count - degreeBound` Connected peers; neither variant
propagates a failure (the embedded functions are total). -/
theorem claim_C6_degenerate_eviction (p : Peer) (all_peers : List Nat)
    (sample : List Nat → Nat → List Nat)
    (hkeys : (p.known_peers.map Prod.fst).Nodup)
    (hs : ∀ pool k, k ≤ pool.length → validSample pool k (sample pool k)) :
    (all_peers.length ≤ 1 →
      DistanceOptimizedPeer.remove_excess_connections p all_peers sample =
        (p, [])) ∧
    ((all_peers = [] ∨ all_peers = [p.id]) →
      soft_max_connections_improved p.max_connections <
        p.get_connected_peers.length →
      (ImprovedDistanceOptimizedPeer.remove_excess_connections p all_peers
        sample).2 = sample p.get_connected_peers
          (p.get_connected_peers.length - p.max_connections) ∧
      (ImprovedDistanceOptimizedPeer.remove_excess_connections p all_peers
        sample).1.get_connected_peers.length = p.max_connections) := by
  constructor
  · intro hall
    unfold DistanceOptimizedPeer.remove_excess_connections
    dsimp only
    by_cases hn : p.get_connected_peers.length ≤
        soft_max_connections p.max_connections
    · rw [if_pos hn]
    · rw [if_neg hn]
      rw [show optimize_connections p all_peers sample = [] from by
        unfold optimize_connections
        rw [if_pos hall]]
      rfl
  · intro hdeg hover
    have hcalc : calculate_routing_distribution p all_peers = none := by
      rcases hdeg with rfl | rfl
      · unfold calculate_routing_distribution
        rw [if_pos rfl]
      · unfold calculate_routing_distribution
        rw [if_neg (by simp)]
        simp
    have hconn : p.get_connected_peers.Nodup := by
      rw [connOf_peer]
      exact (connOf_sublist_keys p.known_peers).nodup hkeys
    have hsoft : p.max_connections + 2 ≤ soft_max_connections_improved
        p.max_connections := by
      unfold soft_max_connections_improved connection_slack_improved
      omega
    have hN : p.max_connections < p.get_connected_peers.length := by omega
    have hopt : optimize_connections_improved p all_peers sample =
        sample p.get_connected_peers
          (p.get_connected_peers.length - p.max_connections) := by
      unfold optimize_connections_improved
      rw [if_neg (by omega), hcalc]
      dsimp only
      rw [show min (p.get_connected_peers.length - p.max_connections)
        p.get_connected_peers.length =
        p.get_connected_peers.length - p.max_connections from by omega]
    constructor
    · unfold ImprovedDistanceOptimizedPeer.remove_excess_connections
      dsimp only
      rw [if_neg (by omega)]
      exact hopt
    · unfold ImprovedDistanceOptimizedPeer.remove_excess_connections
      dsimp only
      rw [if_neg (by omega)]
      have hv := hs p.get_connected_peers
        (p.get_connected_peers.length - p.max_connections) (by omega)
      have hnd := validSample_nodup hv hconn
      have hsub : ∀ x ∈ sample p.get_connected_peers
          (p.get_connected_peers.length - p.max_connections),
          x ∈ p.get_connected_peers := fun x hx => hv.2.subset hx
      have hcount := count_after_delete p _ hkeys hnd hsub
      show (connOf ((optimize_connections_improved p all_peers
        sample).foldl (fun kp pid => deleteKey kp pid)
        p.known_peers)).length = p.max_connections
      rw [hopt, hcount, hv.1]
      omega

/-- Witness for the amended C6 at the concrete over-limit peer with itself
as the only candidate. -/
theorem claim_C6_degenerate_eviction_witness :
    (DistanceOptimizedPeer.remove_excess_connections c6peer [0]
      (fun pool k => pool.take k) = (c6peer, [])) ∧
    (ImprovedDistanceOptimizedPeer.remove_excess_connections c6peer [0]
      (fun pool k => pool.take k)).1.get_connected_peers.length =
      c6peer.max_connections :=
  ⟨(claim_C6_degenerate_eviction c6peer [0] (fun pool k => pool.take k)
      (by decide)
      (fun pool k hk => ⟨by rw [List.length_take]; omega,
        (List.take_sublist k pool).subperm⟩)).1 (by decide),
   ((claim_C6_degenerate_eviction c6peer [0] (fun pool k => pool.take k)
      (by decide)
      (fun pool k hk => ⟨by rw [List.length_take]; omega,
        (List.take_sublist k pool).subperm⟩)).2 (Or.inr (by decide))
      (by decide)).2⟩

/-- Counterexample to C6 as stated: `c6peer` has 5 Connected relationships
(trigger 4 exceeded) and the bucket inputs are degenerate (a single
candidate peer), yet the distance-bucketed variant removes nothing instead
of falling back to uniform-random eviction of the exact excess `3`. -/
theorem claim_C6_counterexample :
    c6peer.get_connected_peers.length = 5 ∧
    soft_max_connections c6peer.max_connections = 4 ∧
    DistanceOptimizedPeer.remove_excess_connections c6peer [0]
      (fun pool k => pool.take k) = (c6peer, []) :=
  ⟨by decide, by decide, by decide⟩

/-! ### Claim C5: what the bucketed eviction pass guarantees -/

/-- Elements of the last-`k` slice of a sorted list dominate every other
element of the list. -/
theorem sorted_take_reverse_le (key : Nat → Nat) (l : List Nat) (k : Nat)
    {r e : Nat} (hr : r ∈ l)
    (hrt : r ∉ (sortLe (fun a b : Nat => key a ≤ key b) l).reverse.take k)
    (he : e ∈ (sortLe (fun a b : Nat => key a ≤ key b) l).reverse.take k) :
    key r ≤ key e := by
  have hpw : (sortLe (fun a b : Nat => key a ≤ key b) l).Pairwise
      (fun a b => key a ≤ key b) := by
    refine (sorted_sortLe ?_ ?_ l).imp ?_
    · intro a b c hab hbc
      simp only [decide_eq_true_eq] at hab hbc ⊢
      omega
    · intro a b
      simp only [decide_eq_true_eq]
      omega
    · intro a b hab
      simpa using hab
  rw [List.take_reverse, List.mem_reverse] at hrt he
  have hrs : r ∈ sortLe (fun a b : Nat => key a ≤ key b) l :=
    mem_sortLe.mpr hr
  have hsplit := List.take_append_drop
    ((sortLe (fun a b : Nat => key a ≤ key b) l).length - k)
    (sortLe (fun a b : Nat => key a ≤ key b) l)
  have hrtake : r ∈ (sortLe (fun a b : Nat => key a ≤ key b) l).take
      ((sortLe (fun a b : Nat => key a ≤ key b) l).length - k) := by
    rw [← hsplit] at hrs
    rcases List.mem_append.mp hrs with h | h
    · exact h
    · exact absurd h hrt
  have hcross := (List.pairwise_append.mp (by
    rw [hsplit]; exact hpw)).2.2
  exact hcross r hrtake e he

/-- Closeness guarantee of the per-bucket pass: a Connected peer in the same
bucket as a scheduled eviction, itself not scheduled, is at least as close
to the evicting peer. -/
theorem bucket_phase_closeness (key : Nat → Nat) (ts : List (Nat × Nat))
    (assign : Nat → Option Nat) (n : Nat) (conn : List Nat) {e r : Nat}
    (he : e ∈ bucket_phase_removals key ts (distribution_of assign n conn))
    (hr : r ∈ conn) (hassign : assign r = assign e)
    (hrb : r ∉ bucket_phase_removals key ts (distribution_of assign n conn)) :
    key r ≤ key e := by
  rw [bucket_phase_removals_eq] at he hrb
  rw [List.mem_flatten] at he
  obtain ⟨l, hl, hel⟩ := he
  obtain ⟨bt, hbt, rfl⟩ := List.mem_map.mp hl
  dsimp only at hel
  split at hel
  case isFalse => simp at hel
  case isTrue hcond =>
    have heB : e ∈ (lookupInfo (distribution_of assign n conn) bt.1
        ).getD [] := by
      have := List.take_subset _ _ hel
      rw [List.mem_reverse, mem_sortLe] at this
      exact this
    have hlt : bt.1 < n := by
      by_contra hge
      rw [distribution_of_lookup, if_neg hge] at heB
      simp at heB
    have hassignE : assign e = some bt.1 := by
      rw [distribution_of_lookup, if_pos hlt] at heB
      simpa using List.of_mem_filter heB
    have hrB : r ∈ (lookupInfo (distribution_of assign n conn) bt.1
        ).getD [] := by
      rw [distribution_of_lookup, if_pos hlt]
      refine List.mem_filter.mpr ⟨hr, ?_⟩
      rw [hassign, hassignE]
      simp
    have hrslice : r ∉ (sortLe (fun a b : Nat => key a ≤ key b)
        ((lookupInfo (distribution_of assign n conn) bt.1).getD [])
        ).reverse.take
        (min (((lookupInfo (distribution_of assign n conn) bt.1
          ).getD []).length - bt.2)
          (sortLe (fun a b : Nat => key a ≤ key b)
            ((lookupInfo (distribution_of assign n conn) bt.1).getD [])
            ).length) := by
      intro hmem
      refine hrb (List.mem_flatten.mpr ⟨_, List.mem_map_of_mem _ hbt, ?_⟩)
      dsimp only
      rw [if_pos hcond]
      exact hmem
    exact sorted_take_reverse_le key _ _ hrB hrslice hel

/-- **C5 (amended).** For a peer with more Connected relationships than its
degree bound: the distance-bucketed eviction removes exactly the excess
(final count `= degreeBound`), and the improved prefix-bucketed eviction
removes at least the excess (final count `≤ degreeBound`); in both variants
every Connected peer of a bucket that is **not scheduled by the per-bucket
pass** and survives the eviction is at least as close to the evicting peer
as every peer that pass scheduled from the same bucket.  The residual
uniform-random pass carries no closeness guarantee
(`claim_C5_counterexample`). -/
theorem claim_C5_bucketed_eviction (p : Peer) (all_peers : List Nat)
    (sample : List Nat → Nat → List Nat)
    (hkeys : (p.known_peers.map Prod.fst).Nodup)
    (hall : 1 < all_peers.length)
    (hN : p.max_connections < p.get_connected_peers.length)
    (hs : ∀ pool k, k ≤ pool.length → validSample pool k (sample pool k)) :
    (connOf ((optimize_connections p all_peers sample).foldl
      (fun kp pid => deleteKey kp pid) p.known_peers)).length =
      p.max_connections ∧
    (connOf ((optimize_connections_improved p all_peers sample).foldl
      (fun kp pid => deleteKey kp pid) p.known_peers)).length ≤
      p.max_connections ∧
    (∀ e r,
      e ∈ bucket_phase_removals (fun cp => xor_distance p.id cp)
        (calculate_optimal_distribution p all_peers).1
        (distribution_of
          (rangeAssign p (calculate_optimal_distribution p all_peers).2.2)
          (calculate_optimal_distribution p all_peers).1.length
          p.get_connected_peers) →
      r ∈ p.get_connected_peers →
      r ∉ optimize_connections p all_peers sample →
      r ∉ bucket_phase_removals (fun cp => xor_distance p.id cp)
        (calculate_optimal_distribution p all_peers).1
        (distribution_of
          (rangeAssign p (calculate_optimal_distribution p all_peers).2.2)
          (calculate_optimal_distribution p all_peers).1.length
          p.get_connected_peers) →
      rangeAssign p (calculate_optimal_distribution p all_peers).2.2 r =
        rangeAssign p (calculate_optimal_distribution p all_peers).2.2 e →
      xor_distance p.id r ≤ xor_distance p.id e) ∧
    (∀ final buckets,
      calculate_routing_distribution p all_peers = some (final, buckets) →
      ∀ e r,
      e ∈ bucket_phase_removals (fun cp => xor_distance p.id cp) final
        (distribution_of
          (fun cp =>
            if xor_distance p.id cp = 0 then none
            else some (min (count_leading_zeros (xor_distance p.id cp)) 31))
          32 p.get_connected_peers) →
      r ∈ p.get_connected_peers →
      r ∉ bucket_phase_removals (fun cp => xor_distance p.id cp) final
        (distribution_of
          (fun cp =>
            if xor_distance p.id cp = 0 then none
            else some (min (count_leading_zeros (xor_distance p.id cp)) 31))
          32 p.get_connected_peers) →
      (if xor_distance p.id r = 0 then none
       else some (min (count_leading_zeros (xor_distance p.id r)) 31)) =
      (if xor_distance p.id e = 0 then none
       else some (min (count_leading_zeros (xor_distance p.id e)) 31)) →
      xor_distance p.id r ≤ xor_distance p.id e) := by
  have hconn : p.get_connected_peers.Nodup := by
    rw [connOf_peer]
    exact (connOf_sublist_keys p.known_peers).nodup hkeys
  refine ⟨?_, ?_, ?_, ?_⟩
  · obtain ⟨hnd, hsub, hlen⟩ := optimize_connections_spec p all_peers
      sample hall hconn hN hs
    rw [count_after_delete p _ hkeys hnd hsub, hlen]
    omega
  · obtain ⟨hnd, hsub, hlen⟩ := optimize_improved_spec p all_peers sample
      hconn hN hs
    rw [count_after_delete p _ hkeys hnd hsub]
    omega
  · intro e r he hr _ hrb hassign
    exact bucket_phase_closeness (fun cp => xor_distance p.id cp) _
      (rangeAssign p (calculate_optimal_distribution p all_peers).2.2) _
      p.get_connected_peers he hr hassign hrb
  · intro final buckets _ e r he hr hrb hassign
    exact bucket_phase_closeness (fun cp => xor_distance p.id cp) final
      (fun cp =>
        if xor_distance p.id cp = 0 then none
        else some (min (count_leading_zeros (xor_distance p.id cp)) 31))
      32 p.get_connected_peers he hr hassign hrb

/-- Witness for the amended C5 at the thirteen-Connected concrete peer: the
distance-bucketed eviction lands exactly on the degree bound. -/
theorem claim_C5_bucketed_eviction_witness :
    (connOf ((optimize_connections c5peer c5all
      (fun pool k => pool.take k)).foldl
      (fun kp pid => deleteKey kp pid) c5peer.known_peers)).length =
      c5peer.max_connections ∧
    (connOf ((optimize_connections_improved c5peer c5all
      (fun pool k => pool.take k)).foldl
      (fun kp pid => deleteKey kp pid) c5peer.known_peers)).length ≤
      c5peer.max_connections :=
  ⟨(claim_C5_bucketed_eviction c5peer c5all (fun pool k => pool.take k)
      (by decide) (by decide) (by decide)
      (fun pool k hk => ⟨by rw [List.length_take]; omega,
        (List.take_sublist k pool).subperm⟩)).1,
   (claim_C5_bucketed_eviction c5peer c5all (fun pool k => pool.take k)
      (by decide) (by decide) (by decide)
      (fun pool k hk => ⟨by rw [List.length_take]; omega,
        (List.take_sublist k pool).subperm⟩)).2.1⟩

/-- Counterexample to C5 as stated: on `c5peer` the eviction removes
`[320, 1, 2]`; peers 1 (evicted) and 5 (retained) lie in the same distance
bucket, yet the retained peer 5 is strictly farther from the evicting peer
than the evicted peer 1 — the residual uniform-random pass violates the
in-bucket closeness property. -/
theorem claim_C5_counterexample :
    (DistanceOptimizedPeer.remove_excess_connections c5peer c5all
      (fun pool k => pool.take k)).2 = [320, 1, 2] ∧
    rangeAssign c5peer (calculate_optimal_distribution c5peer c5all).2.2 1 =
      rangeAssign c5peer
        (calculate_optimal_distribution c5peer c5all).2.2 5 ∧
    (5 : Nat) ∈ c5peer.get_connected_peers ∧
    (5 : Nat) ∉ (DistanceOptimizedPeer.remove_excess_connections c5peer
      c5all (fun pool k => pool.take k)).2 ∧
    xor_distance c5peer.id 1 < xor_distance c5peer.id 5 :=
  ⟨by decide, by decide, by decide, by decide, by decide⟩

/-! ### Claim C8: relationships never reference self -/

/-- A key is absent exactly when no entry carries it. -/
theorem hasKey_false_iff {α : Type} (kp : List (Nat × α)) (k : Nat) :
    hasKey kp k = false ↔ ∀ e ∈ kp, e.1 ≠ k := by
  induction kp with
  | nil => simp [hasKey, lookupInfo]
  | cons e t ih =>
    obtain ⟨a, v⟩ := e
    rw [hasKey_cons]
    simp only [decide_eq_false_iff_not, not_or, Bool.not_eq_true,
      List.mem_cons]
    rw [ih]
    constructor
    · rintro ⟨h1, h2⟩ x hx
      rcases hx with rfl | hx
      · exact h1
      · exact h2 x hx
    · intro hall
      exact ⟨hall (a, v) (Or.inl rfl), fun x hx => hall x (Or.inr hx)⟩

/-- Writing a different key preserves the absence of a key. -/
theorem hasKey_setInfoEntry (kp : List (Nat × PeerInfo)) (pid k : Nat)
    (st : PeerState) (r : Int) (hk : k ≠ pid)
    (h : hasKey kp k = false) :
    hasKey (setInfoEntry kp pid st r) k = false := by
  rw [hasKey_false_iff] at h ⊢
  intro e he
  unfold setInfoEntry at he
  split at he
  · obtain ⟨e0, he0, rfl⟩ := List.mem_map.mp he
    by_cases hp : (e0.1 == pid) = true
    · rw [if_pos hp]
      exact h e0 he0
    · rw [if_neg hp]
      exact h e0 he0
  · rcases List.mem_append.mp he with h1 | h2
    · exact h e h1
    · simp only [List.mem_singleton] at h2
      subst h2
      exact fun hh => hk hh.symm

/-- Rewriting the values under one key preserves the absence of a key. -/
theorem hasKey_map_update_false {α : Type} (kp : List (Nat × α))
    (pid k : Nat) (f : Nat × α → α) (h : hasKey kp k = false) :
    hasKey (kp.map (fun e => if e.1 == pid then (e.1, f e) else e)) k =
      false := by
  rw [hasKey_false_iff] at h ⊢
  intro e' he'
  obtain ⟨e, he, rfl⟩ := List.mem_map.mp he'
  by_cases hp : (e.1 == pid) = true
  · rw [if_pos hp]
    exact h e he
  · rw [if_neg hp]
    exact h e he

/-- Deletion preserves the absence of a key. -/
theorem hasKey_deleteKey {α : Type} (kp : List (Nat × α)) (x k : Nat)
    (h : hasKey kp k = false) : hasKey (deleteKey kp x) k = false := by
  rw [hasKey_false_iff] at h ⊢
  intro e he
  unfold deleteKey at he
  exact h e (List.mem_of_mem_filter he)

/-- Iterated deletion preserves the absence of a key. -/
theorem hasKey_foldl_deleteKey {α : Type} (k : Nat) :
    ∀ (l : List Nat) (kp : List (Nat × α)),
      hasKey kp k = false →
      hasKey (l.foldl (fun kp pid => deleteKey kp pid) kp) k = false := by
  intro l
  induction l with
  | nil => intro kp h; exact h
  | cons x t ih =>
    intro kp h
    rw [List.foldl_cons]
    exact ih _ (hasKey_deleteKey kp x k h)

/-- An entry's key is present. -/
theorem mem_key_hasKey {α : Type} {kp : List (Nat × α)} {e : Nat × α}
    (he : e ∈ kp) : hasKey kp e.1 = true := by
  cases hh : hasKey kp e.1 with
  | false => exact absurd rfl ((hasKey_false_iff kp e.1).mp hh e he)
  | true => rfl

/-- A Connected peer is a key of the relationship map. -/
theorem mem_connected_hasKey (p : Peer) (x : Nat)
    (h : x ∈ p.get_connected_peers) : hasKey p.known_peers x = true := by
  unfold Peer.get_connected_peers Peer.get_peers_by_state at h
  obtain ⟨e, he, hex⟩ := List.mem_filterMap.mp h
  have hx : e.1 = x := by
    split at hex
    · simpa using hex
    · simp at hex
  exact hx ▸ mem_key_hasKey he

/-- Every element of an updated registry is either untouched or the image
of an element stored under the updated key. -/
theorem mem_updatePeer {net : List Peer} {t : Nat} {f : Peer → Peer}
    {q : Peer} (h : q ∈ updatePeer net t f) :
    ∃ p ∈ net, (p.id = t ∧ q = f p) ∨ q = p := by
  obtain ⟨p, hp, hq⟩ := List.mem_map.mp h
  by_cases hpt : (p.id == t) = true
  · rw [if_pos hpt] at hq
    exact ⟨p, hp, Or.inl ⟨by simpa using hpt, hq.symm⟩⟩
  · rw [if_neg hpt] at hq
    exact ⟨p, hp, Or.inr hq.symm⟩

/-- Processing an invite from a sender other than `k` never puts the key
`k` into the relationship map. -/
theorem processInvite_noSelf (p : Peer) (r : Int) (inv : Invite) (k : Nat)
    (hself : hasKey p.known_peers k = false) (hinv : inv.sender_id ≠ k) :
    hasKey (p.processInvite r inv).1.known_peers k = false := by
  unfold Peer.processInvite
  cases h : p.get_peer_state inv.sender_id with
  | none =>
    exact hasKey_setInfoEntry p.known_peers inv.sender_id k _ _
      hinv.symm hself
  | some st =>
    cases st with
    | connected =>
      exact hasKey_map_update_false p.known_peers inv.sender_id k _ hself
    | prospect => exact hself
    | pending =>
      exact hasKey_setInfoEntry p.known_peers inv.sender_id k _ _
        hinv.symm hself
    | identified =>
      exact hasKey_setInfoEntry p.known_peers inv.sender_id k _ _
        hinv.symm hself

/-- The invite-processing fold never puts the key `k` into the relationship
map when no queued sender is `k`. -/
theorem processInvites_fold_noSelf (r : Int) (k : Nat) :
    ∀ (l : List Invite) (acc : Peer × List (Nat × PeerState)),
      hasKey acc.1.known_peers k = false →
      (∀ inv ∈ l, inv.sender_id ≠ k) →
      hasKey (l.foldl (fun acc invite =>
        let s := acc.1.processInvite r invite
        (s.1, acc.2 ++ s.2.toList)) acc).1.known_peers k = false := by
  intro l
  induction l with
  | nil => intro acc h _; exact h
  | cons inv t ih =>
    intro acc h hsend
    rw [List.foldl_cons]
    exact ih _ (processInvite_noSelf acc.1 r inv k h (hsend inv (by simp)))
      (fun i hi => hsend i (List.mem_cons_of_mem _ hi))

/-- `Peer.process_invites` never puts the key `k` into the relationship map
when no queued sender is `k`. -/
theorem process_invites_noSelf (p : Peer) (r : Int) (k : Nat)
    (hself : hasKey p.known_peers k = false)
    (hinv : ∀ inv ∈ p.pending_invites, inv.sender_id ≠ k) :
    hasKey (p.process_invites r).1.known_peers k = false := by
  unfold Peer.process_invites
  dsimp only
  exact processInvites_fold_noSelf r k p.pending_invites (p, []) hself hinv

/-- Uniform-random eviction only deletes relationship records and leaves
the inbox alone. -/
theorem remove_excess_noSelf (p : Peer)
    (sample : List Nat → Nat → List Nat) (k : Nat)
    (h : hasKey p.known_peers k = false) :
    hasKey (p.remove_excess_connections sample).1.known_peers k = false ∧
    (p.remove_excess_connections sample).1.pending_invites =
      p.pending_invites := by
  unfold Peer.remove_excess_connections
  dsimp only
  split
  · exact ⟨h, rfl⟩
  · exact ⟨hasKey_foldl_deleteKey k _ p.known_peers h, rfl⟩

/-- Recording a peer other than the registry key preserves the no-self
invariant. -/
theorem noSelfNet_updatePeer_set (net : List Peer) (pid d : Nat)
    (st : PeerState) (r : Int) (hd : d ≠ pid) (hnet : noSelfNet net) :
    noSelfNet (updatePeer net pid (fun q => q.set_peer_state d st r)) := by
  intro q hq
  obtain ⟨p0, hp0, hcase⟩ := mem_updatePeer hq
  rcases hcase with ⟨hp0id, rfl⟩ | rfl
  · obtain ⟨hk, hpend⟩ := hnet p0 hp0
    refine ⟨?_, fun inv hi => hpend inv hi⟩
    show hasKey (setInfoEntry p0.known_peers d st r) p0.id = false
    refine hasKey_setInfoEntry p0.known_peers d p0.id st r ?_ hk
    rw [hp0id]
    exact fun hh => hd hh.symm
  · exact hnet _ hp0

/-- Refreshing a timestamp preserves the no-self invariant. -/
theorem noSelfNet_updatePeer_touch (net : List Peer) (pid d : Nat)
    (r : Int) (hnet : noSelfNet net) :
    noSelfNet (updatePeer net pid
      (fun q => q.update_last_heard_from d r)) := by
  intro q hq
  obtain ⟨p0, hp0, hcase⟩ := mem_updatePeer hq
  rcases hcase with ⟨_, rfl⟩ | rfl
  · obtain ⟨hk, hpend⟩ := hnet p0 hp0
    refine ⟨?_, fun inv hi => hpend inv hi⟩
    show hasKey (p0.known_peers.map (fun e =>
      if e.1 == d then (e.1, { e.2 with last_heard_from := r }) else e))
      p0.id = false
    exact hasKey_map_update_false p0.known_peers d p0.id _ hk
  · exact hnet _ hp0

/-- Delivering an invite whose sender differs from the receiving key
preserves the no-self invariant. -/
theorem noSelfNet_deliver (net : List Peer) (t s : Nat) (r : Int)
    (hst : s ≠ t) (hnet : noSelfNet net) :
    noSelfNet (updatePeer net t (fun q => q.receive_invite ⟨s, r⟩)) := by
  intro q hq
  obtain ⟨p0, hp0, hcase⟩ := mem_updatePeer hq
  rcases hcase with ⟨hp0id, rfl⟩ | rfl
  · obtain ⟨hk, hpend⟩ := hnet p0 hp0
    refine ⟨hk, ?_⟩
    intro inv hi
    have hi' : inv ∈ p0.pending_invites ++ [(⟨s, r⟩ : Invite)] := hi
    rcases List.mem_append.mp hi' with h1 | h2
    · exact hpend inv h1
    · simp only [List.mem_singleton] at h2
      subst h2
      show s ≠ p0.id
      rw [hp0id]
      exact hst
  · exact hnet _ hp0

/-- A maintenance-delivery fold whose targets all differ from the sender
preserves the no-self invariant. -/
theorem deliver_fold_noSelf (s : Nat) (r : Int) :
    ∀ (sel : List Nat) (net : List Peer),
      (∀ x ∈ sel, x ≠ s) → noSelfNet net →
      noSelfNet (sel.foldl (fun net target_id =>
        if memNet net target_id then
          updatePeer net target_id (fun q => q.receive_invite ⟨s, r⟩)
        else net) net) := by
  intro sel
  induction sel with
  | nil => intro net _ h; exact h
  | cons t ts ih =>
    intro net hs h
    rw [List.foldl_cons]
    by_cases hmem : memNet net t = true
    · rw [if_pos hmem]
      exact ih _ (fun x hx => hs x (List.mem_cons_of_mem _ hx))
        (noSelfNet_deliver net t s r (hs t (by simp)).symm h)
    · rw [if_neg hmem]
      exact ih _ (fun x hx => hs x (List.mem_cons_of_mem _ hx)) h

/-- The phase-1 reaction preserves the no-self invariant and only emits
invite pairs with distinct sender and receiver. -/
theorem phase1_react_noSelf (r : Int) (acc : List Peer × List (Nat × Nat))
    (pid : Nat) (peer : Peer) (res : Option Nat) (hpid : peer.id = pid)
    (hnet : noSelfNet acc.1) (hinv : ∀ sr ∈ acc.2, sr.1 ≠ sr.2) :
    noSelfNet (phase1_react r acc pid peer res).1 ∧
    ∀ sr ∈ (phase1_react r acc pid peer res).2, sr.1 ≠ sr.2 := by
  cases res with
  | none => exact ⟨hnet, hinv⟩
  | some d =>
    unfold phase1_react
    dsimp only
    by_cases hg : d ≠ 0 ∧ d ≠ peer.id ∧ memNet acc.1 d = true
    · rw [if_pos hg]
      have hd : d ≠ pid := hpid ▸ hg.2.1
      have hpair : ∀ sr ∈ acc.2 ++ [(peer.id, d)], sr.1 ≠ sr.2 := by
        intro sr hsr
        rcases List.mem_append.mp hsr with h1 | h2
        · exact hinv sr h1
        · simp only [List.mem_singleton] at h2
          subst h2
          exact fun hh => hg.2.1 hh.symm
      cases hst : peer.get_peer_state d with
      | none =>
        exact ⟨noSelfNet_updatePeer_set acc.1 pid d .pending r hd hnet,
          hpair⟩
      | some st =>
        cases st with
        | connected =>
          exact ⟨noSelfNet_updatePeer_touch acc.1 pid d r hnet, hpair⟩
        | prospect =>
          exact ⟨noSelfNet_updatePeer_set acc.1 pid d .connected r hd hnet,
            hpair⟩
        | pending => exact ⟨hnet, hinv⟩
        | identified =>
          exact ⟨noSelfNet_updatePeer_set acc.1 pid d .pending r hd hnet,
            hpair⟩
    · rw [if_neg hg]
      exact ⟨hnet, hinv⟩

/-- One phase-1 turn preserves the no-self invariant and the
distinct-pairs property of the collected invites. -/
theorem phase1_step_noSelf (o : RoundOracle) (r : Int)
    (acc : List Peer × List (Nat × Nat)) (pid : Nat)
    (hnet : noSelfNet acc.1) (hinv : ∀ sr ∈ acc.2, sr.1 ≠ sr.2) :
    noSelfNet (phase1_step o r acc pid).1 ∧
    ∀ sr ∈ (phase1_step o r acc pid).2, sr.1 ≠ sr.2 := by
  unfold phase1_step
  cases hfp : findPeer acc.1 pid with
  | none => exact ⟨hnet, hinv⟩
  | some peer =>
    exact phase1_react_noSelf r acc pid peer _ (findPeer_id hfp) hnet hinv

/-- Phase 1 as a whole preserves the no-self invariant and produces only
distinct invite pairs. -/
theorem phase1_fold_noSelf (o : RoundOracle) (r : Int) :
    ∀ (ids : List Nat) (acc : List Peer × List (Nat × Nat)),
      noSelfNet acc.1 → (∀ sr ∈ acc.2, sr.1 ≠ sr.2) →
      noSelfNet (ids.foldl (phase1_step o r) acc).1 ∧
      ∀ sr ∈ (ids.foldl (phase1_step o r) acc).2, sr.1 ≠ sr.2 := by
  intro ids
  induction ids with
  | nil => intro acc h1 h2; exact ⟨h1, h2⟩
  | cons pid rest ih =>
    intro acc h1 h2
    rw [List.foldl_cons]
    obtain ⟨h1', h2'⟩ := phase1_step_noSelf o r acc pid h1 h2
    exact ih _ h1' h2'

/-- Phase 2 preserves the no-self invariant when every delivered pair has
distinct sender and receiver. -/
theorem phase2_noSelf (r : Int) :
    ∀ (invs : List (Nat × Nat)) (net : List Peer),
      noSelfNet net → (∀ sr ∈ invs, sr.1 ≠ sr.2) →
      noSelfNet (phase2 r net invs) := by
  intro invs
  induction invs with
  | nil => intro net h _; exact h
  | cons sr rest ih =>
    intro net h hinv
    unfold phase2
    rw [List.foldl_cons]
    have hrest : ∀ x ∈ rest, x.1 ≠ x.2 :=
      fun x hx => hinv x (List.mem_cons_of_mem _ hx)
    by_cases hmem : memNet net sr.2 = true
    · rw [if_pos hmem]
      exact ih _ (noSelfNet_deliver net sr.2 sr.1 r (hinv sr (by simp)) h)
        hrest
    · rw [if_neg hmem]
      exact ih _ h hrest

/-- One phase-3 turn of the fixed simulator preserves the no-self
invariant, provided the maintenance sample stays inside the Connected
pool it is drawn from. -/
theorem phase3_step_noSelf (o : RoundOracle) (r : Int)
    (hmaint : ∀ pid conn, ∀ x ∈ o.maint_sample pid conn, x ∈ conn)
    (net : List Peer) (pid : Nat) (hnet : noSelfNet net) :
    noSelfNet (phase3_step o r (fixed_evict o) net pid).1 := by
  unfold phase3_step
  cases hfp : findPeer net pid with
  | none => exact hnet
  | some peer =>
    dsimp only
    have hpid : peer.id = pid := findPeer_id hfp
    obtain ⟨hk, hpend⟩ := hnet peer (List.mem_of_find?_eq_some hfp)
    have hkproc : hasKey (peer.process_invites r).1.known_peers pid =
        false :=
      process_invites_noSelf peer r pid (hpid ▸ hk)
        (fun inv hi => hpid ▸ hpend inv hi)
    set net1 := updatePeer net pid (fun _ => (peer.process_invites r).1)
      with hnet1
    set sel := if (peer.process_invites r).1.get_connected_peers.length ≥ 2
      then o.maint_sample pid (peer.process_invites r).1.get_connected_peers
      else [] with hsel
    set net2 := sel.foldl (fun net target_id =>
      if memNet net target_id then
        updatePeer net target_id
          (fun q => q.receive_invite ⟨peer.id, r⟩)
      else net) net1 with hnet2
    have hn1 : noSelfNet net1 := by
      rw [hnet1]
      intro q hq
      obtain ⟨p0, hp0, hcase⟩ := mem_updatePeer hq
      rcases hcase with ⟨_, rfl⟩ | rfl
      · constructor
        · show hasKey (peer.process_invites r).1.known_peers
            (peer.process_invites r).1.id = false
          rw [Peer.process_invites_id, hpid]
          exact hkproc
        · intro inv hi
          have hi' : inv ∈ ([] : List Invite) := hi
          exact absurd hi' (List.not_mem_nil inv)
      · exact hnet _ hp0
    have hselid : ∀ x ∈ sel, x ≠ peer.id := by
      intro x hx hxe
      have hxconn : x ∈ (peer.process_invites r).1.get_connected_peers := by
        rw [hsel] at hx
        split at hx
        · exact hmaint pid _ x hx
        · exact absurd hx (List.not_mem_nil x)
      have hhk := mem_connected_hasKey _ x hxconn
      rw [hxe, hpid] at hhk
      rw [hkproc] at hhk
      exact Bool.noConfusion hhk
    have hn2 : noSelfNet net2 := by
      rw [hnet2]
      exact deliver_fold_noSelf peer.id r sel net1 hselid hn1
    cases hfp2 : findPeer net2 pid with
    | none => exact hn2
    | some q2 =>
      dsimp only
      intro q hq
      obtain ⟨p0, hp0, hcase⟩ := mem_updatePeer hq
      rcases hcase with ⟨_, rfl⟩ | rfl
      · obtain ⟨hk2, hpend2⟩ := hn2 q2 (List.mem_of_find?_eq_some hfp2)
        have hre := remove_excess_noSelf q2 (o.evict_sample pid) q2.id hk2
        constructor
        · show hasKey (fixed_evict o pid q2).1.known_peers
            (fixed_evict o pid q2).1.id = false
          rw [fixed_evict_id o pid q2]
          exact hre.1
        · intro inv hi
          have hi' : inv ∈ (q2.remove_excess_connections
              (o.evict_sample pid)).1.pending_invites := hi
          rw [hre.2] at hi'
          show inv.sender_id ≠ (fixed_evict o pid q2).1.id
          rw [fixed_evict_id o pid q2]
          exact hpend2 inv hi'
      · exact hn2 _ hp0

/-- The phase-3 loop preserves the no-self invariant. -/
theorem phase3_go_noSelf (o : RoundOracle) (r : Int)
    (hmaint : ∀ pid conn, ∀ x ∈ o.maint_sample pid conn, x ∈ conn) :
    ∀ (ids : List Nat) (net : List Peer)
      (logs : List (Nat × List Invite × List Nat)),
      noSelfNet net →
      noSelfNet (phase3_go o r (fixed_evict o) ids net logs).1 := by
  intro ids
  induction ids with
  | nil => intro net logs h; exact h
  | cons pid rest ih =>
    intro net logs h
    rw [phase3_go]
    exact ih _ _ (phase3_step_noSelf o r hmaint net pid h)

/-- A full round of the fixed simulator preserves the no-self invariant. -/
theorem simulate_round_noSelf (o : RoundOracle) (r : Int) (net : List Peer)
    (hmaint : ∀ pid conn, ∀ x ∈ o.maint_sample pid conn, x ∈ conn)
    (hnet : noSelfNet net) : noSelfNet (simulate_round o r net) := by
  have h1 := phase1_fold_noSelf o r (net.map (·.id)) (net, []) hnet
    (fun sr hsr => absurd hsr (List.not_mem_nil sr))
  have h2 := phase2_noSelf r (phase1 o r net).2 (phase1 o r net).1 h1.1 h1.2
  exact phase3_go_noSelf o r hmaint
    ((phase2 r (phase1 o r net).1 (phase1 o r net).2).map (·.id))
    (phase2 r (phase1 o r net).1 (phase1 o r net).2) [] h2

/-- Bootstrap establishes the no-self invariant: established members record
everyone but themselves, and joining members record only sampled
established ids, which are never their own. -/
theorem initialize_network_noSelf (connected_ids candidate_ids : List Nat)
    (mc : Nat) (identified_sample : Nat → List Nat)
    (hid : ∀ cid ∈ candidate_ids, ∀ x ∈ identified_sample cid,
      x ∈ connected_ids)
    (hdisj : ∀ cid ∈ candidate_ids, cid ∉ connected_ids) :
    noSelfNet (initialize_network connected_ids candidate_ids mc
      identified_sample) := by
  intro p hp
  unfold initialize_network at hp
  rcases List.mem_append.mp hp with h | h
  · obtain ⟨pid, hpid, rfl⟩ := List.mem_map.mp h
    dsimp only
    constructor
    · rw [hasKey_false_iff]
      intro e he
      obtain ⟨oid, hoid, rfl⟩ := List.mem_map.mp he
      simpa using List.of_mem_filter hoid
    · intro inv hi
      exact absurd hi (List.not_mem_nil inv)
  · obtain ⟨pid, hpid, rfl⟩ := List.mem_map.mp h
    dsimp only
    constructor
    · rw [hasKey_false_iff]
      intro e he
      obtain ⟨iid, hiid, rfl⟩ := List.mem_map.mp he
      intro hh
      exact hdisj pid hpid (hh ▸ hid pid hpid iid hiid)
    · intro inv hi
      exact absurd hi (List.not_mem_nil inv)

/-- Any number of rounds preserves the no-self invariant. -/
theorem run_rounds_noSelf (oracles : Nat → RoundOracle) (net : List Peer)
    (hmaint : ∀ k pid conn, ∀ x ∈ (oracles k).maint_sample pid conn,
      x ∈ conn)
    (hnet : noSelfNet net) (n : Nat) :
    noSelfNet (run_rounds oracles net n) := by
  induction n with
  | zero => exact hnet
  | succ k ih =>
    show noSelfNet (simulate_round (oracles k) (k : Int)
      (run_rounds oracles net k))
    exact simulate_round_noSelf (oracles k) (k : Int) _ (hmaint k) ih

/-- **C8.** In every state reachable by the simulation — bootstrap followed
by any number of rounds of discovery, invite dispatch, invite processing,
maintenance and eviction — no peer's relationship map contains the peer's
own id.  The hypotheses state what the source guarantees about its random
draws: each joining member's Identified sample is drawn from the
established ids, the joining ids are generated excluding the established
ids, and each maintenance sample is drawn from the sampled peer's
Connected list. -/
theorem claim_C8_no_self_reference
    (connected_ids candidate_ids : List Nat) (max_connections : Nat)
    (identified_sample : Nat → List Nat) (oracles : Nat → RoundOracle)
    (n : Nat)
    (hid : ∀ cid ∈ candidate_ids, ∀ x ∈ identified_sample cid,
      x ∈ connected_ids)
    (hdisj : ∀ cid ∈ candidate_ids, cid ∉ connected_ids)
    (hmaint : ∀ k pid conn, ∀ x ∈ (oracles k).maint_sample pid conn,
      x ∈ conn) :
    ∀ p ∈ run_rounds oracles
        (initialize_network connected_ids candidate_ids max_connections
          identified_sample) n,
      hasKey p.known_peers p.id = false :=
  fun p hp =>
    (run_rounds_noSelf oracles _ hmaint
      (initialize_network_noSelf connected_ids candidate_ids
        max_connections identified_sample hid hdisj) n p hp).1

/-- Witness for C8: a two-member network bootstrapped with one joining
candidate, run for one full round under the concrete take-first oracle. -/
theorem claim_C8_no_self_reference_witness :
    ((run_rounds (fun _ => trivOracle)
      (initialize_network [1, 2] [3] 2 (fun _ => [1])) 1).all
      (fun p => !(hasKey p.known_peers p.id))) = true := by
  rw [List.all_eq_true]
  intro p hp
  have h := claim_C8_no_self_reference [1, 2] [3] 2 (fun _ => [1])
    (fun _ => trivOracle) 1
    (fun cid hcid x hx => by
      simp only [List.mem_singleton] at hx
      simp [hx])
    (by decide)
    (fun k pid conn x hx => List.take_subset 2 conn hx)
    p hp
  simp [h]

/-- Witness for C10: on the two-peer demo registry the mapping request
returns peer 1 (nonzero), and a zero discovery outcome is a no-op. -/
theorem claim_C10_peer_zero_undiscoverable_witness :
    (simulate_mapping_request demoNet demoPeerA 0
        (fun pool k => pool.take k) = some 1 → (1 : Nat) ≠ 0) ∧
    phase1_react 0 (demoNet, []) 1 demoPeerA (some 0) = (demoNet, []) :=
  ⟨(claim_C10_peer_zero_undiscoverable demoNet demoPeerA 0
      (fun pool k => pool.take k)
      (fun pool k _ hx => List.take_subset k pool hx)).1 1,
   (claim_C10_peer_zero_undiscoverable demoNet demoPeerA 0
      (fun pool k => pool.take k)
      (fun pool k _ hx => List.take_subset k pool hx)).2.2.2 0
     (demoNet, []) 1 demoPeerA⟩

end EcNode
